import Mathlib

/-!
# Verification of `mitiq/cdr/clifford_training_data.py`

A shallow embedding of the near-Clifford training-circuit generator.
Angles are real numbers; the Python float operations `%`, `int()`,
`np.round` are modelled exactly on the reals.  The random draws made by
`random.sample`, `random.choice`, `random.randint` and `np.random.choice`
are modelled by explicit oracle parameters, so that theorems can quantify
over every possible outcome of the randomness.
-/

namespace CliffordData

noncomputable section

open Real

open List


/-- Python's float modulo `x % y` (for the positive modulus used here):
`x - y * floor (x / y)`. -/
def pmod (x y : ℝ) : ℝ := x - y * ⌊x / y⌋

/-- Python's `int()` applied to a float: truncation toward zero. -/
def pyInt (x : ℝ) : ℤ := if 0 ≤ x then ⌊x⌋ else -⌊-x⌋

/-- `np.round` to an integer: round half to even, else to nearest. -/
def npRound (x : ℝ) : ℤ :=
  if x - ⌊x⌋ = 1 / 2 then (if Even ⌊x⌋ then ⌊x⌋ else ⌊x⌋ + 1) else round x

/-- `CLIFFORD_ANGLES = (0.0, np.pi/2, np.pi, (3/2)*(np.pi))`. -/
def CLIFFORD_ANGLES : List ℝ := [0, π / 2, π, (3 / 2) * π]

/-- The scaled coordinate `ang_scaled = (ang % (2*np.pi)) / (np.pi/2)`. -/
def angScaled (ang : ℝ) : ℝ := pmod ang (2 * π) / (π / 2)

/-- The guard of `_closest_clifford`'s deterministic branch:
`abs(s/0.5 - 1) > 10**-6 and abs(s/0.5 - 3) > 10**-6 and abs(s/0.5 - 5) > 10**-6`. -/
def detCond (s : ℝ) : Prop :=
  |s / 0.5 - 1| > 1e-6 ∧ |s / 0.5 - 3| > 1e-6 ∧ |s / 0.5 - 5| > 1e-6

instance (s : ℝ) : Decidable (detCond s) := by
  unfold detCond
  infer_instance

/-- `_closest_clifford(ang)`.  The `tie` flag records the outcome of
`random.choice(index_list)` in the two-equidistant-gates branch
(`false` picks `ang_scaled - 0.5`, `true` picks `ang_scaled + 0.5`). -/
def closestClifford (ang : ℝ) (tie : Bool) : ℝ :=
  if detCond (angScaled ang) then
    CLIFFORD_ANGLES.getD ((npRound (angScaled ang)).emod 4).toNat 0
  else
    CLIFFORD_ANGLES.getD
      (pyInt (([angScaled ang - 0.5, angScaled ang + 0.5] : List ℝ).getD
        (cond tie 1 0) 0)).toNat 0

/-- `_is_clifford_angle(ang, tol=10**-5)` for a single angle.  The `tie`
flag is the draw made by the inner `_closest_clifford` call. -/
def isCliffordAngle (ang : ℝ) (tie : Bool) : Bool :=
  decide (|closestClifford (pmod ang (2 * π)) tie - pmod ang (2 * π)| < 1e-5)

/-! ## Basic facts about the numeric model -/

theorem pmod_eq_fract (x y : ℝ) (hy : y ≠ 0) : pmod x y = y * Int.fract (x / y) := by
  unfold pmod Int.fract
  field_simp

theorem pmod_nonneg (x y : ℝ) (hy : 0 < y) : 0 ≤ pmod x y := by
  rw [pmod_eq_fract x y (ne_of_gt hy)]
  exact mul_nonneg hy.le (Int.fract_nonneg _)

theorem pmod_lt (x y : ℝ) (hy : 0 < y) : pmod x y < y := by
  rw [pmod_eq_fract x y (ne_of_gt hy)]
  calc y * Int.fract (x / y) < y * 1 := by
        exact mul_lt_mul_of_pos_left (Int.fract_lt_one _) hy
    _ = y := mul_one y

theorem pmod_eq_self (x y : ℝ) (h0 : 0 ≤ x) (h1 : x < y) : pmod x y = x := by
  have hy : 0 < y := lt_of_le_of_lt h0 h1
  have : ⌊x / y⌋ = 0 := by
    rw [Int.floor_eq_zero_iff]
    constructor
    · exact div_nonneg h0 hy.le
    · rw [div_lt_one hy]; exact h1
  unfold pmod
  rw [this]
  simp

theorem pmod_idem (x y : ℝ) (hy : 0 < y) : pmod (pmod x y) y = pmod x y :=
  pmod_eq_self _ _ (pmod_nonneg x y hy) (pmod_lt x y hy)

theorem pyInt_of_nonneg {x : ℝ} (h : 0 ≤ x) : pyInt x = ⌊x⌋ := by
  unfold pyInt; rw [if_pos h]

theorem pyInt_of_neg_gt_neg_one {x : ℝ} (h0 : x < 0) (h1 : -1 < x) : pyInt x = 0 := by
  unfold pyInt
  rw [if_neg (not_le.mpr h0)]
  have : ⌊-x⌋ = 0 := by
    rw [Int.floor_eq_zero_iff]
    constructor
    · linarith
    · linarith
  rw [this]; simp

theorem pyInt_toNat_lt_four {x : ℝ} (hlo : (-1 : ℝ) < x) (hhi : x < 4) :
    (pyInt x).toNat < 4 := by
  by_cases hpos : 0 ≤ x
  · rw [pyInt_of_nonneg hpos]
    have h4 : ⌊x⌋ < 4 := by
      rw [Int.floor_lt]; push_cast; linarith
    have h0 : 0 ≤ ⌊x⌋ := Int.floor_nonneg.mpr hpos
    omega
  · rw [pyInt_of_neg_gt_neg_one (not_le.mp hpos) hlo]
    norm_num

theorem pyInt_natCast (n : ℕ) : pyInt (n : ℝ) = (n : ℤ) := by
  rw [pyInt_of_nonneg (Nat.cast_nonneg n)]
  exact Int.floor_natCast n

theorem npRound_intCast (n : ℤ) : npRound (n : ℝ) = n := by
  unfold npRound
  rw [Int.floor_intCast]
  have : (n : ℝ) - n = 0 := by ring
  rw [this, if_neg (by norm_num)]
  exact round_intCast n

theorem npRound_natCast (n : ℕ) : npRound (n : ℝ) = (n : ℤ) := by
  rw [show ((n : ℕ) : ℝ) = (((n : ℤ)) : ℝ) by push_cast; rfl]
  exact npRound_intCast _

/-- Every entry of the Clifford angle table (and the out-of-range default)
is a natural multiple of `π/2` with coefficient at most 3. -/
theorem cliffordAngles_getD (m : ℕ) :
    ∃ j : ℕ, j ≤ 3 ∧ CLIFFORD_ANGLES.getD m 0 = (j : ℝ) * (π / 2) := by
  match m with
  | 0 => exact ⟨0, by norm_num, by simp [CLIFFORD_ANGLES]⟩
  | 1 => exact ⟨1, by norm_num, by simp [CLIFFORD_ANGLES]⟩
  | 2 => exact ⟨2, by norm_num, by simp [CLIFFORD_ANGLES]; ring⟩
  | 3 => exact ⟨3, by norm_num, by simp [CLIFFORD_ANGLES]; ring⟩
  | (n+4) => exact ⟨0, by norm_num, by simp [CLIFFORD_ANGLES]⟩

theorem cliffordAngles_getD_mem {m : ℕ} (hm : m < 4) :
    CLIFFORD_ANGLES.getD m 0 ∈ CLIFFORD_ANGLES := by
  interval_cases m <;> simp [CLIFFORD_ANGLES]

/-! ## Branch analysis of `_closest_clifford` -/

theorem closestClifford_of_det {ang : ℝ} (tie : Bool) (h : detCond (angScaled ang)) :
    closestClifford ang tie =
      CLIFFORD_ANGLES.getD ((npRound (angScaled ang)).emod 4).toNat 0 := by
  unfold closestClifford
  rw [if_pos h]

theorem closestClifford_of_tie {ang : ℝ} (tie : Bool) (h : ¬ detCond (angScaled ang)) :
    closestClifford ang tie =
      CLIFFORD_ANGLES.getD
        (pyInt (if tie then angScaled ang + 0.5 else angScaled ang - 0.5)).toNat 0 := by
  unfold closestClifford
  rw [if_neg h]
  cases tie <;> simp

theorem closestClifford_false_of_tie {ang : ℝ} (h : ¬ detCond (angScaled ang)) :
    closestClifford ang false =
      CLIFFORD_ANGLES.getD (pyInt (angScaled ang - 0.5)).toNat 0 := by
  rw [closestClifford_of_tie false h]
  simp

theorem closestClifford_true_of_tie {ang : ℝ} (h : ¬ detCond (angScaled ang)) :
    closestClifford ang true =
      CLIFFORD_ANGLES.getD (pyInt (angScaled ang + 0.5)).toNat 0 := by
  rw [closestClifford_of_tie true h]
  simp

/-- Both branches of `_closest_clifford` return a natural multiple of `π/2`
with coefficient at most 3. -/
theorem closestClifford_mult (ang : ℝ) (tie : Bool) :
    ∃ j : ℕ, j ≤ 3 ∧ closestClifford ang tie = (j : ℝ) * (π / 2) := by
  unfold closestClifford
  split
  · exact cliffordAngles_getD _
  · exact cliffordAngles_getD _

/-- If the guard fails, the scaled coordinate is within `5e-7` of one of the
midpoints `0.5`, `1.5`, `2.5` (the guard tests `s/0.5` against `1e-6`). -/
theorem not_detCond_iff (s : ℝ) :
    ¬ detCond s ↔ (|2 * s - 1| ≤ 1e-6 ∨ |2 * s - 3| ≤ 1e-6 ∨ |2 * s - 5| ≤ 1e-6) := by
  have h05 : s / 0.5 = 2 * s := by norm_num; ring
  unfold detCond
  rw [h05]
  push_neg
  constructor
  · intro h
    by_cases h1 : |2 * s - 1| ≤ 1e-6
    · exact Or.inl h1
    · by_cases h3 : |2 * s - 3| ≤ 1e-6
      · exact Or.inr (Or.inl h3)
      · exact Or.inr (Or.inr (h (not_le.mp h1) (not_le.mp h3)))
  · intro h h1 h3
    rcases h with h | h | h
    · exact absurd h1 (not_lt.mpr h)
    · exact absurd h3 (not_lt.mpr h)
    · exact h

/-- In the tie branch, every natural multiple of `π/2` is at distance at
least the Clifford tolerance `1e-5` from the reduced angle: the random
tie-break can never affect the Clifford/non-Clifford classification. -/
theorem tie_branch_far {b : ℝ} (hb0 : 0 ≤ b) (hcond : ¬ detCond (b / (π / 2)))
    (j : ℕ) : ¬ (|(j : ℝ) * (π / 2) - b| < 1e-5) := by
  have hpi : (3 : ℝ) < π := Real.pi_gt_three
  have hhalf : (0 : ℝ) < π / 2 := by linarith
  set s : ℝ := b / (π / 2) with hs
  have hb : b = s * (π / 2) := by
    rw [hs]; field_simp
  rw [not_detCond_iff] at hcond
  -- in every case, `s` is within 5e-7 of a half-odd-integer `k/2`
  have key : ∀ k : ℤ, Odd k → |2 * s - (k : ℝ)| ≤ 1e-6 →
      ¬ (|(j : ℝ) * (π / 2) - b| < 1e-5) := by
    intro k hk hnear
    have hne : (1 : ℤ) ≤ |2 * (j : ℤ) - k| := by
      refine Int.one_le_abs ?_
      rcases hk with ⟨m, hm⟩
      omega
    have hner : (1 : ℝ) ≤ |2 * (j : ℝ) - (k : ℝ)| := by
      have : ((|2 * (j : ℤ) - k| : ℤ) : ℝ) = |2 * (j : ℝ) - (k : ℝ)| := by
        push_cast [Int.cast_abs]
        norm_num
      rw [← this]
      exact_mod_cast hne
    -- |2j - 2s| ≥ |2j - k| - |2s - k| ≥ 1 - 1e-6
    have htri : |2 * (j : ℝ) - (k : ℝ)| ≤ |2 * (j : ℝ) - 2 * s| + |2 * s - (k : ℝ)| := by
      have hsum : 2 * (j : ℝ) - (k : ℝ) = (2 * (j : ℝ) - 2 * s) + (2 * s - (k : ℝ)) := by
        ring
      rw [hsum]
      exact abs_add _ _
    have hfar2 : 1 - 1e-6 ≤ |2 * (j : ℝ) - 2 * s| := by linarith
    have hfar : (1 - 1e-6) / 2 ≤ |(j : ℝ) - s| := by
      have : |2 * (j : ℝ) - 2 * s| = 2 * |(j : ℝ) - s| := by
        rw [show 2 * (j : ℝ) - 2 * s = 2 * ((j : ℝ) - s) by ring, abs_mul]
        norm_num
      linarith [this ▸ hfar2]
    intro habs
    have hfactor : |(j : ℝ) * (π / 2) - b| = |(j : ℝ) - s| * (π / 2) := by
      rw [hb, show (j : ℝ) * (π / 2) - s * (π / 2) = ((j : ℝ) - s) * (π / 2) by ring,
        abs_mul, abs_of_pos hhalf]
    rw [hfactor] at habs
    nlinarith [hfar, hhalf]
  rcases hcond with h | h | h
  · exact key 1 (by decide) (by push_cast; linarith [h])
  · exact key 3 (by decide) (by push_cast; linarith [h])
  · exact key 5 (by decide) (by push_cast; linarith [h])

/-- Determinism of the Clifford classification: the random tie-break inside
`_closest_clifford` never changes the value of `_is_clifford_angle`. -/
theorem isCliffordAngle_tie_irrel (ang : ℝ) (t₁ t₂ : Bool) :
    isCliffordAngle ang t₁ = isCliffordAngle ang t₂ := by
  have hpi : (0 : ℝ) < π := Real.pi_pos
  have h2pi : (0 : ℝ) < 2 * π := by linarith
  unfold isCliffordAngle
  set b := pmod ang (2 * π) with hbdef
  have hb0 : 0 ≤ b := pmod_nonneg ang _ h2pi
  have hblt : b < 2 * π := pmod_lt ang _ h2pi
  have hscaled : angScaled b = b / (π / 2) := by
    unfold angScaled
    rw [pmod_eq_self b _ hb0 hblt]
  by_cases hdet : detCond (angScaled b)
  · rw [closestClifford_of_det t₁ hdet, closestClifford_of_det t₂ hdet]
  · have h₁ := closestClifford_mult b t₁
    have h₂ := closestClifford_mult b t₂
    rcases h₁ with ⟨j₁, _, hj₁⟩
    rcases h₂ with ⟨j₂, _, hj₂⟩
    rw [hscaled] at hdet
    rw [hj₁, hj₂]
    simp only [decide_eq_decide]
    constructor
    · intro h; exact absurd h (tie_branch_far hb0 hdet j₁)
    · intro h; exact absurd h (tie_branch_far hb0 hdet j₂)

/-! ## Closure of the Clifford angle oracle -/

theorem angScaled_nonneg (ang : ℝ) : 0 ≤ angScaled ang := by
  have h2pi : (0 : ℝ) < 2 * π := by linarith [Real.pi_pos]
  have hhalf : (0 : ℝ) < π / 2 := by linarith [Real.pi_pos]
  exact div_nonneg (pmod_nonneg ang _ h2pi) hhalf.le

theorem angScaled_lt_four (ang : ℝ) : angScaled ang < 4 := by
  have h2pi : (0 : ℝ) < 2 * π := by linarith [Real.pi_pos]
  have hhalf : (0 : ℝ) < π / 2 := by linarith [Real.pi_pos]
  unfold angScaled
  rw [div_lt_iff hhalf]
  have := pmod_lt ang (2 * π) h2pi
  linarith

theorem not_detCond_le {s : ℝ} (h : ¬ detCond s) : s ≤ 2.5 + 5e-7 := by
  rw [not_detCond_iff] at h
  rcases h with h | h | h <;> rcases abs_le.mp h with ⟨h1, h2⟩ <;> linarith

theorem angScaled_of_mult {x : ℝ} (h0 : 0 ≤ x) (h4 : x < 4) :
    angScaled (x * (π / 2)) = x := by
  have hhalf : (0 : ℝ) < π / 2 := by linarith [Real.pi_pos]
  unfold angScaled
  rw [pmod_eq_self _ _ (by positivity) (by nlinarith)]
  field_simp

theorem closestClifford_mem (ang : ℝ) (tie : Bool) :
    closestClifford ang tie ∈ CLIFFORD_ANGLES := by
  by_cases hdet : detCond (angScaled ang)
  · rw [closestClifford_of_det tie hdet]
    have h1 : 0 ≤ (npRound (angScaled ang)).emod 4 := Int.emod_nonneg _ (by norm_num)
    have h2 : (npRound (angScaled ang)).emod 4 < 4 := Int.emod_lt_of_pos _ (by norm_num)
    exact cliffordAngles_getD_mem (by omega)
  · rw [closestClifford_of_tie tie hdet]
    have hs0 := angScaled_nonneg ang
    have hsle := not_detCond_le hdet
    refine cliffordAngles_getD_mem (pyInt_toNat_lt_four ?_ ?_) <;> split <;> linarith

theorem cliffordAngles_getD_nat {n : ℕ} (hn : n ≤ 3) :
    CLIFFORD_ANGLES.getD n 0 = (n : ℝ) * (π / 2) := by
  interval_cases n <;> simp [CLIFFORD_ANGLES] <;> ring

/-- Each of the four Clifford angles is classified as Clifford, for every
outcome of the tie-break. -/
theorem isCliffordAngle_nat_mult {n : ℕ} (hn : n ≤ 3) (t : Bool) :
    isCliffordAngle ((n : ℝ) * (π / 2)) t = true := by
  have hhalf : (0 : ℝ) < π / 2 := by linarith [Real.pi_pos]
  have hn4 : ((n : ℝ)) < 4 := by
    have : (n : ℝ) ≤ 3 := by exact_mod_cast hn
    linarith
  have hred : pmod ((n : ℝ) * (π / 2)) (2 * π) = (n : ℝ) * (π / 2) := by
    refine pmod_eq_self _ _ (by positivity) ?_
    nlinarith
  have hsc : angScaled ((n : ℝ) * (π / 2)) = (n : ℝ) :=
    angScaled_of_mult (by positivity) hn4
  have hdet : detCond ((n : ℝ)) := by
    unfold detCond
    interval_cases n <;> norm_num
  unfold isCliffordAngle
  rw [hred, closestClifford_of_det t (by rw [hsc]; exact hdet), hsc, npRound_natCast]
  have hmt : (((n : ℤ)).emod 4).toNat = n := by
    rw [show ((n : ℤ)).emod 4 = (n : ℤ) % 4 from rfl]
    omega
  rw [hmt, cliffordAngles_getD_nat hn]
  simp only [sub_self, abs_zero, decide_eq_true_eq]
  norm_num

/-- C8: Closure of the Clifford angle oracle: for every angle `θ` and every
outcome of the random midpoint tie-break, `_closest_clifford(θ)` is a member
of `CLIFFORD_ANGLES = {0, π/2, π, 3π/2}` and `_is_clifford_angle` holds of it
(for every tie-break outcome of the classification itself). -/
theorem C8_clifford_closure (θ : ℝ) (tie : Bool) :
    closestClifford θ tie ∈ CLIFFORD_ANGLES ∧
    ∀ tie' : Bool, isCliffordAngle (closestClifford θ tie) tie' = true := by
  refine ⟨closestClifford_mem θ tie, fun tie' => ?_⟩
  obtain ⟨j, hj3, hj⟩ := closestClifford_mult θ tie
  rw [hj]
  exact isCliffordAngle_nat_mult hj3 tie'

/-- C7, counterexample: at `θ = (0.5 + 8e-7)·(π/2)` the scaled coordinate
`s = 0.5 + 8e-7` is within `1e-6` of the midpoint `0.5`, so the claim says
the result is a uniformly random choice between the two Clifford angles `0`
and `π/2`, both reachable.  But the code's guard tests `s/0.5` (tolerance
`5e-7` on `s`), takes the deterministic branch, and returns `π/2` for both
draws: the outcome `0` is not reachable. -/
theorem C7_counterexample :
    |angScaled ((0.5 + 8e-7) * (π / 2)) - 0.5| ≤ 1e-6 ∧
    closestClifford ((0.5 + 8e-7) * (π / 2)) false = π / 2 ∧
    closestClifford ((0.5 + 8e-7) * (π / 2)) true = π / 2 ∧
    (π / 2 : ℝ) ≠ 0 := by
  have hsc : angScaled ((0.5 + 8e-7) * (π / 2)) = 0.5 + 8e-7 :=
    angScaled_of_mult (by norm_num) (by norm_num)
  have hdet : detCond ((0.5 + 8e-7 : ℝ)) := by
    unfold detCond
    refine ⟨?_, ?_, ?_⟩
    · rw [gt_iff_lt, lt_abs]; left; norm_num
    · rw [gt_iff_lt, lt_abs]; right; norm_num
    · rw [gt_iff_lt, lt_abs]; right; norm_num
  have hnr : npRound ((0.5 + 8e-7 : ℝ)) = 1 := by
    unfold npRound
    have hfl : ⌊(0.5 + 8e-7 : ℝ)⌋ = 0 := by
      rw [Int.floor_eq_zero_iff]
      constructor <;> norm_num
    rw [hfl, if_neg (by push_cast; norm_num), round_eq]
    rw [Int.floor_eq_iff]
    push_cast
    constructor <;> norm_num
  have hval : ∀ t : Bool, closestClifford ((0.5 + 8e-7) * (π / 2)) t = π / 2 := by
    intro t
    rw [closestClifford_of_det t (by rw [hsc]; exact hdet), hsc, hnr]
    norm_num [CLIFFORD_ANGLES]
  refine ⟨?_, hval false, hval true, ?_⟩
  · rw [hsc, abs_le]
    constructor <;> norm_num
  · have := Real.pi_pos
    intro h
    linarith

/-- C7, amended: with `s = (θ mod 2π)/(π/2)`, the deterministic branch is
taken iff `|2s - k| > 1e-6` for all `k ∈ {1,3,5}` (a tolerance of `5e-7` on
`s`, not `1e-6`), and then the result is `CLIFFORD_ANGLES[round(s) mod 4]`
for every draw.  Otherwise the two draws return
`CLIFFORD_ANGLES[int(s - 0.5)]` and `CLIFFORD_ANGLES[int(s + 0.5)]` (`int` =
truncation toward zero, no reduction mod 4), and at an exact midpoint
`s = k/2` these are the two equidistant Clifford angles, indices `(k-1)/2`
and `(k+1)/2`. -/
theorem C7_nearest_clifford (θ : ℝ) :
    (detCond (angScaled θ) ↔
      (|2 * angScaled θ - 1| > 1e-6 ∧ |2 * angScaled θ - 3| > 1e-6 ∧
        |2 * angScaled θ - 5| > 1e-6)) ∧
    (detCond (angScaled θ) → ∀ t₁ t₂ : Bool,
      closestClifford θ t₁ = closestClifford θ t₂ ∧
      closestClifford θ t₁ =
        CLIFFORD_ANGLES.getD ((npRound (angScaled θ)).emod 4).toNat 0) ∧
    (¬ detCond (angScaled θ) →
      closestClifford θ false = CLIFFORD_ANGLES.getD (pyInt (angScaled θ - 0.5)).toNat 0 ∧
      closestClifford θ true = CLIFFORD_ANGLES.getD (pyInt (angScaled θ + 0.5)).toNat 0) ∧
    (∀ k : ℕ, (k = 1 ∨ k = 3 ∨ k = 5) → angScaled θ = (k : ℝ) / 2 →
      closestClifford θ false = CLIFFORD_ANGLES.getD ((k - 1) / 2) 0 ∧
      closestClifford θ true = CLIFFORD_ANGLES.getD ((k + 1) / 2) 0) := by
  have h05 : angScaled θ / 0.5 = 2 * angScaled θ := by
    norm_num; ring
  refine ⟨?_, ?_, ?_, ?_⟩
  · unfold detCond
    rw [h05]
  · intro hdet t₁ t₂
    rw [closestClifford_of_det t₁ hdet, closestClifford_of_det t₂ hdet]
    exact ⟨rfl, rfl⟩
  · intro hdet
    exact ⟨closestClifford_false_of_tie hdet, closestClifford_true_of_tie hdet⟩
  · intro k hk hsk
    have hdet : ¬ detCond (angScaled θ) := by
      rw [hsk, not_detCond_iff]
      rcases hk with rfl | rfl | rfl
      · left; push_cast; rw [abs_le]; constructor <;> norm_num
      · right; left; push_cast; rw [abs_le]; constructor <;> norm_num
      · right; right; push_cast; rw [abs_le]; constructor <;> norm_num
    have h0 := closestClifford_false_of_tie hdet
    have h1 := closestClifford_true_of_tie hdet
    rw [hsk] at h0 h1
    rcases hk with rfl | rfl | rfl
    · refine ⟨?_, ?_⟩
      · rw [h0, show ((1:ℕ):ℝ)/2 - 0.5 = ((0:ℕ):ℝ) by push_cast; norm_num,
          pyInt_natCast]
        norm_num [show Int.toNat 2 = 2 from rfl, show Int.toNat 3 = 3 from rfl]
      · rw [h1, show ((1:ℕ):ℝ)/2 + 0.5 = ((1:ℕ):ℝ) by push_cast; norm_num,
          pyInt_natCast]
        norm_num [show Int.toNat 2 = 2 from rfl, show Int.toNat 3 = 3 from rfl]
    · refine ⟨?_, ?_⟩
      · rw [h0, show ((3:ℕ):ℝ)/2 - 0.5 = ((1:ℕ):ℝ) by push_cast; norm_num,
          pyInt_natCast]
        norm_num [show Int.toNat 2 = 2 from rfl, show Int.toNat 3 = 3 from rfl]
      · rw [h1, show ((3:ℕ):ℝ)/2 + 0.5 = ((2:ℕ):ℝ) by push_cast; norm_num,
          pyInt_natCast]
        norm_num [show Int.toNat 2 = 2 from rfl, show Int.toNat 3 = 3 from rfl]
    · refine ⟨?_, ?_⟩
      · rw [h0, show ((5:ℕ):ℝ)/2 - 0.5 = ((2:ℕ):ℝ) by push_cast; norm_num,
          pyInt_natCast]
        norm_num [show Int.toNat 2 = 2 from rfl, show Int.toNat 3 = 3 from rfl]
      · rw [h1, show ((5:ℕ):ℝ)/2 + 0.5 = ((3:ℕ):ℝ) by push_cast; norm_num,
          pyInt_natCast]
        norm_num [show Int.toNat 2 = 2 from rfl, show Int.toNat 3 = 3 from rfl]

/-- Witness for the amended C7 theorem at the exact midpoint `θ = π/4`
(scaled coordinate `s = 0.5`): the two tie-break draws return the two
equidistant Clifford angles `0` and `π/2`. -/
theorem C7_nearest_clifford_witness :
    closestClifford (π / 4) false = 0 ∧ closestClifford (π / 4) true = π / 2 := by
  have hsc : angScaled (π / 4) = ((1 : ℕ) : ℝ) / 2 := by
    rw [show (π / 4 : ℝ) = (1 / 2) * (π / 2) by ring]
    rw [angScaled_of_mult (by norm_num) (by norm_num)]
    norm_num
  have h := (C7_nearest_clifford (π / 4)).2.2.2 1 (Or.inl rfl) hsc
  refine ⟨?_, ?_⟩
  · rw [h.1]; simp [CLIFFORD_ANGLES]
  · rw [h.2]; simp [CLIFFORD_ANGLES]

/-! ## The angle-distance weights (`_angle_to_probabilities` and
`_probabilistic_angle_to_clifford`) -/

/-- The reference matrix `S = np.array([[1, 0.0], [0.0, 1j]])`. -/
def Smat : Matrix (Fin 2) (Fin 2) ℂ := !![1, 0; 0, Complex.I]

/-- `Rz = np.array([[1, 0.0], [0.0, np.exp(angle*1j)]])`. -/
def RzMat (a : ℝ) : Matrix (Fin 2) (Fin 2) ℂ := !![1, 0; 0, Complex.exp (a * Complex.I)]

/-- numpy's elementwise matrix power `M ** k`. -/
def entryPow (M : Matrix (Fin 2) (Fin 2) ℂ) (k : ℕ) : Matrix (Fin 2) (Fin 2) ℂ :=
  Matrix.of fun r c => M r c ^ k

/-- `np.linalg.norm` of a 2×2 complex matrix: the Frobenius norm. -/
def frobNorm (M : Matrix (Fin 2) (Fin 2) ℂ) : ℝ :=
  Real.sqrt (∑ r : Fin 2, ∑ c : Fin 2, Complex.abs (M r c) ^ 2)

/-- The `dists` list built by `_angle_to_probabilities` (and, identically, by
`_probabilistic_angle_to_clifford`): the loop runs `i in range(4)` replacing
`i == 0` by `4`, so the exponents are `4, 1, 2, 3` in that order, and each
entry is `np.exp(-(np.linalg.norm(Rz - S**i)/sigma)**2)` with `Rz` built
from the angle reduced modulo `2π`. -/
def cliffDists (angle sigma : ℝ) : List ℝ :=
  ([4, 1, 2, 3] : List ℕ).map fun i =>
    Real.exp (-(frobNorm (RzMat (pmod angle (2 * π)) - entryPow Smat i) / sigma) ^ 2)

/-- `_angle_to_probabilities(angle, sigma)`: the scalar function underlying
the `np.vectorize` wrapper.  It returns `sum(dists)` — a single number. -/
def angleToProbabilities (angle sigma : ℝ) : ℝ := (cliffDists angle sigma).sum

/-- The normalized 4-outcome distribution `prob_gate` computed by
`_probabilistic_angle_to_clifford` before drawing (aligned with
`CLIFFORD_ANGLES`: the `i = 4` entry corresponds to the angle `0`). -/
def cliffordProbs (ang sigma : ℝ) : List ℝ :=
  (cliffDists ang sigma).map fun d => d / (cliffDists ang sigma).sum

/-- Modelled from the spec (§4.2): `angle_distance_weights(angle, sigma)` is
described as producing, for each of the 4 Clifford reference phase gates
`S^i` (`i = 1..4`), the unnormalized weight `w_i = exp(-(d_i/σ)^2)` where
`d_i` is the matrix-norm distance between `diag(1, e^{iθ})` and `S^i`.
This is the spec's view of the operation, to be compared with the code's
`_angle_to_probabilities`. -/
def specAngleDistanceWeight (θ sigma : ℝ) (i : Fin 4) : ℝ :=
  Real.exp (-(frobNorm (RzMat θ - entryPow Smat (i.1 + 1)) / sigma) ^ 2)

theorem RzMat_pmod (θ : ℝ) : RzMat (pmod θ (2 * π)) = RzMat θ := by
  unfold RzMat pmod
  have hexp : Complex.exp (((θ - 2 * π * ⌊θ / (2 * π)⌋ : ℝ) : ℂ) * Complex.I) =
      Complex.exp ((θ : ℂ) * Complex.I) := by
    have harg : (((θ - 2 * π * ⌊θ / (2 * π)⌋ : ℝ) : ℂ)) * Complex.I =
        (θ : ℂ) * Complex.I - (⌊θ / (2 * π)⌋ : ℂ) * (2 * (π : ℂ) * Complex.I) := by
      push_cast
      ring
    rw [harg, Complex.exp_sub, Complex.exp_int_mul_two_pi_mul_I, div_one]
  rw [hexp]

/-- C1, amended: `_angle_to_probabilities(θ, σ)` returns the **sum** of the
four unnormalized weights `w_i = exp(-(d_i/σ)^2)` of the spec (a single
scalar per angle), not the four weights themselves; the caller then
normalizes these per-gate scalars across gates. -/
theorem C1_angle_to_probabilities (θ σ : ℝ) :
    angleToProbabilities θ σ = ∑ i : Fin 4, specAngleDistanceWeight θ σ i := by
  unfold angleToProbabilities cliffDists specAngleDistanceWeight
  simp only [RzMat_pmod]
  rw [Fin.sum_univ_four]
  simp only [List.map_cons, List.map_nil, List.sum_cons, List.sum_nil,
    show ((0 : Fin 4)).1 + 1 = 1 from rfl, show ((1 : Fin 4)).1 + 1 = 2 from rfl,
    show ((2 : Fin 4)).1 + 1 = 3 from rfl, show ((3 : Fin 4)).1 + 1 = 4 from rfl,
    add_zero]
  ring

theorem frobNorm_sq_eq (k : ℕ) (hk : k ≠ 0) :
    (frobNorm (RzMat 0 - entryPow Smat k) / 1) ^ 2 =
      Complex.normSq (1 - Complex.I ^ k) := by
  unfold frobNorm RzMat Smat entryPow
  rw [div_one, Real.sq_sqrt (by positivity)]
  simp only [Fin.sum_univ_two, Matrix.sub_apply, Matrix.of_apply,
    Matrix.cons_val', Matrix.cons_val_zero, Matrix.cons_val_one, Matrix.head_cons,
    Matrix.empty_val', Matrix.cons_val_fin_one, Matrix.head_fin_const]
  rw [one_pow, zero_pow hk]
  simp only [Complex.ofReal_zero, zero_mul, Complex.exp_zero, sub_self, sub_zero,
    map_zero]
  rw [Complex.sq_abs]
  norm_num

theorem normSq_one_sub_I : Complex.normSq (1 - Complex.I) = 2 := by
  rw [Complex.normSq_apply]
  simp [Complex.sub_re, Complex.sub_im]
  norm_num

theorem normSq_one_sub_I_sq : Complex.normSq (1 - Complex.I ^ 2) = 4 := by
  rw [Complex.I_sq, Complex.normSq_apply]
  norm_num

theorem normSq_one_sub_I_cube : Complex.normSq (1 - Complex.I ^ 3) = 2 := by
  have h3 : Complex.I ^ 3 = -Complex.I := by
    rw [pow_succ, Complex.I_sq]
    ring
  rw [h3, Complex.normSq_apply]
  simp [Complex.sub_re, Complex.sub_im]
  norm_num

theorem normSq_one_sub_I_four : Complex.normSq (1 - Complex.I ^ 4) = 0 := by
  rw [Complex.I_pow_four]
  simp

/-- C1, counterexample: at `θ = 0`, `σ = 1`, the value returned by
`_angle_to_probabilities` is `1 + 2e⁻² + e⁻⁴`, which differs from the
spec's nearest-gate weight `w₄ = exp(-(d₄/σ)²) = 1` (index `3` is the
reference gate `S⁴`, the one at distance 0 from `diag(1, e^{i·0})`): the
operation does not return the individual weights. -/
theorem C1_counterexample :
    angleToProbabilities 0 1 ≠ specAngleDistanceWeight 0 1 3 := by
  have hpm : pmod 0 (2 * π) = 0 := pmod_eq_self 0 _ le_rfl (by positivity)
  have hlhs : angleToProbabilities 0 1 =
      Real.exp 0 + Real.exp (-2) + Real.exp (-4) + Real.exp (-2) := by
    unfold angleToProbabilities cliffDists
    rw [hpm]
    simp only [List.map_cons, List.map_nil, List.sum_cons, List.sum_nil]
    rw [frobNorm_sq_eq 4 (by norm_num), frobNorm_sq_eq 1 (by norm_num),
      frobNorm_sq_eq 2 (by norm_num), frobNorm_sq_eq 3 (by norm_num), pow_one,
      normSq_one_sub_I, normSq_one_sub_I_sq, normSq_one_sub_I_cube,
      normSq_one_sub_I_four]
    norm_num
    ring
  have hrhs : specAngleDistanceWeight 0 1 3 = Real.exp 0 := by
    unfold specAngleDistanceWeight
    rw [show ((3 : Fin 4)).1 + 1 = 4 from rfl]
    rw [frobNorm_sq_eq 4 (by norm_num), normSq_one_sub_I_four]
    norm_num
  rw [hlhs, hrhs]
  have h2 := Real.exp_pos (-2)
  have h4 := Real.exp_pos (-4)
  intro h
  linarith

/-! ## Circuit data model (`_circuit_to_array` / `_array_to_circuit`) -/

/-- The gate basis recognised by `_circuit_to_array`: `rz` (ZPowGate), `rx`
(an XPowGate other than X, always recorded with parameter `π/2`), `x`,
`cx` (CNOT) and `measure`. -/
inductive Op where
  | rz (angle : ℝ) (q : ℕ)
  | rx (q : ℕ)
  | x (q : ℕ)
  | cx (q0 q1 : ℕ)
  | measure (q : ℕ)

/-- One column of the array `np.array([order, gates_list, parameters_list,
qubits_list, operation_list])` built by `_circuit_to_array`. -/
structure GateRecord where
  order : ℕ
  name : String
  param : Option ℝ
  qubits : List ℕ
  native : Op

/-- The column recorded for operation `op` at position `i`. -/
def opToRecord (i : ℕ) (op : Op) : GateRecord :=
  match op with
  | .rz θ q => ⟨i, "rz", some θ, [q], op⟩
  | .rx q => ⟨i, "rx", some (π / 2), [q], op⟩
  | .x q => ⟨i, "x", none, [q], op⟩
  | .cx a b => ⟨i, "cx", none, [a, b], op⟩
  | .measure q => ⟨i, "measure", none, [q], op⟩

/-- `_circuit_to_array(circuit)`: the ordered table of gate records (the
`circuit_empty` return value only carries qubit layout and is not part of
the data model). -/
def circuitToArray (ops : List Op) : List GateRecord :=
  ops.enum.map fun p => opToRecord p.1 p.2

/-- One step of `_array_to_circuit`: rebuild the gate from name, parameter
and qubits (`measure` replays the stored native operation); a name matching
no branch appends nothing. -/
def decodeRecord (r : GateRecord) : Option Op :=
  if r.name = "rz" then some (.rz (r.param.getD 0) (r.qubits.getD 0 0))
  else if r.name = "rx" then some (.rx (r.qubits.getD 0 0))
  else if r.name = "cx" then some (.cx (r.qubits.getD 0 0) (r.qubits.getD 1 0))
  else if r.name = "x" then some (.x (r.qubits.getD 0 0))
  else if r.name = "measure" then some r.native
  else none

/-- `_array_to_circuit(data, empty_circuit)` as the sequence of appended
operations. -/
def arrayToCircuit (recs : List GateRecord) : List Op :=
  recs.filterMap decodeRecord

/-- `data[:, data[1, :] == 'rz']`. -/
def rzRecords (ops : List Op) : List GateRecord :=
  (circuitToArray ops).filter fun r => decide (r.name = "rz")

/-- `data[:, data[1, :] != 'rz']`. -/
def notRzRecords (ops : List Op) : List GateRecord :=
  (circuitToArray ops).filter fun r => decide (¬ r.name = "rz")

/-- `rz_circ_data[:, ~_is_clifford_angle(rz_circ_data[2, :])]`, with the
per-element tie-break draws of the vectorized call supplied by `tie`. -/
def rzNonCliffRecords (ops : List Op) (tie : ℕ → Bool) : List GateRecord :=
  ((rzRecords ops).enum.filter fun p =>
    ! isCliffordAngle ((p.2).param.getD 0) (tie p.1)).map Prod.snd

/-- `rz_circ_data[:, _is_clifford_angle(rz_circ_data[2, :])]`. -/
def rzCliffRecords (ops : List Op) (tie : ℕ → Bool) : List GateRecord :=
  ((rzRecords ops).enum.filter fun p =>
    isCliffordAngle ((p.2).param.getD 0) (tie p.1)).map Prod.snd

/-- The error raised by `np.vectorize` when called on a size-0 array with
no `otypes` (every vectorized helper of this module is created without
`otypes`). -/
def vecEmptyMsg : String :=
  "ValueError: cannot call vectorize on size 0 inputs unless otypes is set"

/-- The encoding prologue shared by `generate_training_circuits`: the two
vectorized `_is_clifford_angle` mask computations raise on a circuit with
no `rz` gates; otherwise return `(not_rz, rz_cliff, rz_non_cliff)`.  The two
mask calls draw independently (`tieA`, `tieB`). -/
def encodeParts (ops : List Op) (tieA tieB : ℕ → Bool) :
    Except String (List GateRecord × List GateRecord × List GateRecord) :=
  if (rzRecords ops).isEmpty then .error vecEmptyMsg
  else .ok (notRzRecords ops, rzCliffRecords ops tieB, rzNonCliffRecords ops tieA)

/-- `count_non_cliffords(circuit)`. -/
def countNonCliffords (ops : List Op) (tie : ℕ → Bool) : Except String ℕ :=
  if (rzRecords ops).isEmpty then .error vecEmptyMsg
  else .ok ((rzRecords ops).enum.filter fun p =>
    ! isCliffordAngle ((p.2).param.getD 0) (tie p.1)).length

/-! ## Options resolution -/

/-- A Python value bound to the `additional_options` keyword: a dict
(association list) or a float. -/
inductive OptVal where
  | dict (d : List (String × ℝ))
  | num (r : ℝ)

/-- The sigma-resolution block at the top of `_map_to_near_clifford`
(`additional_options = additional_options.get('additional_options')`
followed by `if additional_options:` and the key tests).  `none` models a
missing key or `None`; a truthy non-dict value makes `'sigma_select' in …`
raise `TypeError`; a falsy value (empty dict, `0.0`, `None`) selects the
defaults `0.5`/`0.5`. -/
def resolveSigmasDict (d : List (String × ℝ)) : Except String (ℝ × ℝ) :=
  if d.isEmpty then .ok (0.5, 0.5)
  else
    match d.lookup "sigma_select" with
    | some s =>
      match d.lookup "sigma_replace" with
      | some t => .ok (s, t)
      | none => .ok (s, 0.5)
    | none =>
      match d.lookup "sigma_replace" with
      | some t => .ok (0.5, t)
      | none => .error "additional options must be dicitonary with keys containing one or both of sigma_select and sigma_replace both equal to some positive float"

def resolveSigmas (v : Option OptVal) : Except String (ℝ × ℝ) :=
  match v with
  | none => .ok (0.5, 0.5)
  | some (.num r) => if r = 0 then .ok (0.5, 0.5) else .error "TypeError"
  | some (.dict d) => resolveSigmasDict d

/-! ## Randomness oracle -/

/-- The random draws consumed by one `_map_to_near_clifford` call:
`sample n k` models `random.sample(range(n), k)`; `npChoice n k p` models
`np.random.choice(range(n), k, replace=False, p)`; `tieSel i` is the
tie-break of the vectorized `_closest_clifford` at position `i` of the
selected array; `randIdx i` is `random.randint(0, 3)` at position `i`;
`probIdx i p` is the index drawn by `np.random.choice(CLIFFORD_ANGLES, 1,
p=p)` at position `i`. -/
structure Oracle where
  sample : ℕ → ℕ → List ℕ
  npChoice : ℕ → ℕ → List ℝ → List ℕ
  tieSel : ℕ → Bool
  randIdx : ℕ → Fin 4
  probIdx : ℕ → List ℝ → Fin 4

/-- What `random.sample` and `np.random.choice(..., replace=False)`
guarantee about their output: distinct valid indices, `k` of them whenever
`k ≤ n`. -/
structure OracleValid (O : Oracle) : Prop where
  sample_nodup : ∀ n k, (O.sample n k).Nodup
  sample_lt : ∀ n k, ∀ c ∈ O.sample n k, c < n
  sample_len : ∀ n k, k ≤ n → (O.sample n k).length = k
  npChoice_nodup : ∀ n k p, (O.npChoice n k p).Nodup
  npChoice_lt : ∀ n k p, ∀ c ∈ O.npChoice n k p, c < n
  npChoice_len : ∀ n k p, k ≤ n → (O.npChoice n k p).length = k

/-! ## Selection and replacement -/

def sampleErrMsg : String := "ValueError: sample larger than population or is negative"

def selectErrMsg : String := "method_select must = random, probabilistic"

def replaceErrMsg : String := "method_replace must = closest, random, probabilistic"

/-- `rz_non_cliff_copy[:, columns_to_change]`: the selected columns, in draw
order. -/
def pickCols (l : List GateRecord) (cols : List ℕ) : List GateRecord :=
  cols.filterMap fun c => l[c]?

/-- `np.delete(rz_non_cliff_copy, columns_to_change, axis=1)`: the remaining
columns, in original order. -/
def dropCols (l : List GateRecord) (cols : List ℕ) : List GateRecord :=
  ((List.range l.length).filter fun i => decide (i ∉ cols)).filterMap fun c => l[c]?

/-- The selection stage of `_map_to_near_clifford`: the method-string check,
the `ValueError` of `sample`/`np.random.choice` on a negative or oversized
draw count, and (in the probabilistic branch) the normalized weights from
the vectorized `_angle_to_probabilities`, which raises on an empty array. -/
def selectColumns (mSel : String) (rzNC : List GateRecord) (total : ℕ) (k : ℤ)
    (sigmaSel : ℝ) (O : Oracle) : Except String (List ℕ) :=
  if mSel = "random" then
    if k < 0 ∨ (total : ℤ) < k then .error sampleErrMsg
    else .ok (O.sample total k.toNat)
  else if mSel = "probabilistic" then
    if rzNC.isEmpty then .error vecEmptyMsg
    else
      if k < 0 ∨ (total : ℤ) < k then .error sampleErrMsg
      else .ok (O.npChoice total k.toNat
        (((rzNC.map fun r => angleToProbabilities ((r).param.getD 0) sigmaSel)).map
          fun w => w / ((rzNC.map fun r =>
            angleToProbabilities ((r).param.getD 0) sigmaSel)).sum))
  else .error selectErrMsg

/-- `rz_non_cliff_selected[2, :] = …` writes the new angle into the
parameter row of a selected column. -/
def setAngle (r : GateRecord) (θ : ℝ) : GateRecord :=
  { r with param := some θ }

/-- The replacement stage of `_map_to_near_clifford`: each branch applies a
vectorized scalar function to the selected angles (raising on an empty
selection), or raises on an unrecognized method string. -/
def replaceAngles (mRep : String) (sel : List GateRecord) (sigmaRep : ℝ)
    (O : Oracle) : Except String (List ℝ) :=
  if mRep = "closest" then
    if sel.isEmpty then .error vecEmptyMsg
    else .ok (sel.enum.map fun p => closestClifford ((p.2).param.getD 0) (O.tieSel p.1))
  else if mRep = "random" then
    if sel.isEmpty then .error vecEmptyMsg
    else .ok (sel.enum.map fun p => CLIFFORD_ANGLES.getD (O.randIdx p.1).1 0)
  else if mRep = "probabilistic" then
    if sel.isEmpty then .error vecEmptyMsg
    else .ok (sel.enum.map fun p =>
      CLIFFORD_ANGLES.getD (O.probIdx p.1 (cliffordProbs ((p.2).param.getD 0) sigmaRep)).1 0)
  else .error replaceErrMsg

/-! ## Reassembly -/

def recLE (a b : GateRecord) : Prop := a.order ≤ b.order

instance : DecidableRel recLE := fun a b => Nat.decLe a.order b.order

instance : IsTotal GateRecord recLE := ⟨fun a b => Nat.le_total a.order b.order⟩

instance : IsTrans GateRecord recLE := ⟨fun _ _ _ => Nat.le_trans⟩

/-- `np.argsort(new_circ[0, :])` followed by reindexing: sort the merged
records by their `order` key (the keys are distinct, so every sorting
algorithm returns the same list). -/
def sortByOrder (l : List GateRecord) : List GateRecord := List.insertionSort recLE l

/-- `np.column_stack((np.column_stack((all_cliff, rz_non_cliff_selected)),
rz_non_cliff_copy))`: all originally-Clifford columns, then the selected
columns with their new angles, then the unselected non-Clifford columns. -/
def mergedRecords (rzNC allCliff : List GateRecord) (cols : List ℕ)
    (newAngles : List ℝ) : List GateRecord :=
  (allCliff ++ ((pickCols rzNC cols).zip newAngles).map fun p => setAngle p.1 p.2)
    ++ dropCols rzNC cols

/-- `_map_to_near_clifford`.  The first component is the returned triple
`(projected_circuit, angles_original, angles_replaced)` or the raised
exception; the second counts the indices drawn by the selection stage
before the call finished (`0` when it raises before selecting anything). -/
def mapToNearClifford (rzNC allCliff : List GateRecord) (total : ℕ)
    (fraction : ℝ) (mSel mRep : String) (optVal : Option OptVal) (O : Oracle) :
    Except String (List Op × List ℝ × List ℝ) × ℕ :=
  match resolveSigmas optVal with
  | .error e => (.error e, 0)
  | .ok sigmas =>
    match selectColumns mSel rzNC total
        ((total : ℤ) - pyInt (fraction * total)) sigmas.1 O with
    | .error e => (.error e, 0)
    | .ok cols =>
      match replaceAngles mRep (pickCols rzNC cols) sigmas.2 O with
      | .error e => (.error e, cols.length)
      | .ok newAngles =>
        (.ok (arrayToCircuit (sortByOrder (mergedRecords rzNC allCliff cols newAngles)),
          (pickCols rzNC cols).map fun r => r.param.getD 0, newAngles),
          cols.length)

/-- The per-circuit loop of `generate_training_circuits`: the first raised
exception aborts the whole call (no partial results). -/
def collectResults {α : Type} (f : ℕ → Except String α) :
    List ℕ → Except String (List α)
  | [] => .ok []
  | i :: rest =>
    match f i with
    | .error e => .error e
    | .ok a =>
      match collectResults f rest with
      | .error e => .error e
      | .ok as => .ok (a :: as)

/-- The value the wrapper forwards to `_map_to_near_clifford`: when its own
`**additional_options` dict is non-empty it passes
`additional_options.get('additional_options')` (i.e. the value under that
literal key, or `None`), and when the dict is empty it passes nothing. -/
def genOptVal (kwargs : List (String × OptVal)) : Option OptVal :=
  if kwargs.isEmpty then none else kwargs.lookup "additional_options"

/-- `generate_training_circuits`.  `Os i` supplies the random draws of loop
iteration `i`; `tieA`/`tieB` supply the draws of the two vectorized mask
computations made before the loop. -/
def generateTrainingCircuits (ops : List Op) (num : ℕ) (fraction : ℝ)
    (mSel mRep : String) (kwargs : List (String × OptVal)) (Os : ℕ → Oracle)
    (tieA tieB : ℕ → Bool) :
    Except String (List (List Op) × List (List ℝ) × List (List ℝ)) :=
  match encodeParts ops tieA tieB with
  | .error e => .error e
  | .ok parts =>
    match collectResults (fun i =>
        (mapToNearClifford parts.2.2 (parts.1 ++ parts.2.1) parts.2.2.length
          fraction mSel mRep (genOptVal kwargs) (Os i)).1) (List.range num) with
    | .error e => .error e
    | .ok results =>
      .ok (results.map (·.1), results.map (·.2.1), results.map (·.2.2))

/-! ## A concrete oracle for witnesses -/

/-- A concrete well-formed oracle: sampling returns the first `k` indices,
ties resolve to `false`, index draws to `0`. -/
def trivOracle : Oracle where
  sample := fun n k => List.range (min k n)
  npChoice := fun n k _ => List.range (min k n)
  tieSel := fun _ => false
  randIdx := fun _ => 0
  probIdx := fun _ _ => 0

theorem trivOracle_valid : OracleValid trivOracle := by
  constructor <;> intro n k
  · exact List.nodup_range _
  · intro c hc
    have := List.mem_range.mp hc
    omega
  · intro hk
    simp [trivOracle, Nat.min_eq_left hk]
  · intro p
    exact List.nodup_range _
  · intro p c hc
    have := List.mem_range.mp hc
    omega
  · intro p hk
    simp [trivOracle, Nat.min_eq_left hk]

/-! ## C9: `count_non_cliffords` is randomness-independent -/

/-- C9: `count_non_cliffords` is independent of the draws made by the shared
random source: any two evaluations on the same circuit return the same
result (in particular the random midpoint tie-break inside the Clifford
classification cannot change the returned count). -/
theorem C9_count_non_cliffords_pure (ops : List Op) (t₁ t₂ : ℕ → Bool) :
    countNonCliffords ops t₁ = countNonCliffords ops t₂ := by
  unfold countNonCliffords
  split
  · rfl
  · congr 1
    refine congrArg List.length (List.filter_congr ?_)
    intro p _
    rw [isCliffordAngle_tie_irrel ((p.2).param.getD 0) (t₁ p.1) (t₂ p.1)]

/-! ## C4: `count_non_cliffords` on a circuit with no `rz` gates -/

theorem opToRecord_name_rz {i : ℕ} {op : Op}
    (h : (opToRecord i op).name = "rz") : ∃ θ q, op = Op.rz θ q := by
  cases op with
  | rz θ q => exact ⟨θ, q, rfl⟩
  | rx q => simp [opToRecord] at h
  | x q => simp [opToRecord] at h
  | cx a b => simp [opToRecord] at h
  | measure q => simp [opToRecord] at h

theorem rzRecords_eq_nil {ops : List Op}
    (hnorz : ∀ op ∈ ops, ∀ θ q, op ≠ Op.rz θ q) : rzRecords ops = [] := by
  unfold rzRecords circuitToArray
  rw [List.filter_eq_nil_iff]
  intro r hr
  rcases List.mem_map.mp hr with ⟨p, hp, rfl⟩
  have hmem : p.2 ∈ ops := by
    have := List.mem_map_of_mem Prod.snd hp
    rwa [List.enum_map_snd] at this
  simp only [decide_eq_true_eq]
  intro hname
  obtain ⟨θ, q, hop⟩ := opToRecord_name_rz hname
  exact hnorz p.2 hmem θ q hop

/-- C4 (claim falsified by the code): on every non-empty circuit containing
zero `rz` gates, `count_non_cliffords` does not return `0` — the vectorized
`_is_clifford_angle` call receives a size-0 array and `np.vectorize` raises
`ValueError`. -/
theorem C4_count_no_rz_raises (ops : List Op) (tie : ℕ → Bool)
    (hne : ops ≠ [])
    (hnorz : ∀ op ∈ ops, ∀ θ q, op ≠ Op.rz θ q) :
    countNonCliffords ops tie = .error vecEmptyMsg := by
  have hnil : rzRecords ops = [] := rzRecords_eq_nil hnorz
  unfold countNonCliffords
  rw [hnil]
  rfl

/-- Witness: the one-gate circuit `[X(q0)]` has no `rz` gates and
`count_non_cliffords` raises on it. -/
theorem C4_count_no_rz_raises_witness :
    countNonCliffords [Op.x 0] (fun _ => false) = .error vecEmptyMsg :=
  C4_count_no_rz_raises [Op.x 0] (fun _ => false) (by simp)
    (by intro op hop θ q; simp at hop; simp [hop])

/-! ## C6: options validation -/

/-- C6, counterexample: an options dictionary containing the unrecognized
key `"bogus"` next to `"sigma_select"` is accepted (no InvalidArgument is
raised): the validation only inspects the two sigma keys. -/
theorem C6_counterexample :
    resolveSigmas (some (.dict [("sigma_select", 0.3), ("bogus", 1)]))
      = .ok (0.3, 0.5) ∧
    ∀ e, resolveSigmas (some (.dict [("sigma_select", 0.3), ("bogus", 1)]))
      ≠ .error e := by
  have hok : resolveSigmas (some (.dict [("sigma_select", 0.3), ("bogus", 1)]))
      = .ok (0.3, 0.5) := rfl
  exact ⟨hok, fun e h => by rw [hok] at h; exact Except.noConfusion h⟩

/-- C6, amended: a supplied options dictionary fails with InvalidArgument
iff it is non-empty and contains neither `sigma_select` nor `sigma_replace`
(unrecognized keys are otherwise ignored); whenever the call is accepted an
omitted `sigma_select` or `sigma_replace` resolves to the default `0.5`,
and a supplied `sigma_select` is honored. -/
theorem C6_sigma_validation (d : List (String × ℝ)) :
    ((∃ e, resolveSigmas (some (.dict d)) = .error e) ↔
      (d ≠ [] ∧ d.lookup "sigma_select" = none ∧ d.lookup "sigma_replace" = none)) ∧
    (∀ s t : ℝ, resolveSigmas (some (.dict d)) = .ok (s, t) →
      (d.lookup "sigma_select" = none → s = 0.5) ∧
      (d.lookup "sigma_replace" = none → t = 0.5)) ∧
    (∀ s : ℝ, d.lookup "sigma_select" = some s →
      ∃ t, resolveSigmas (some (.dict d)) = .ok (s, t)) := by
  show ((∃ e, resolveSigmasDict d = .error e) ↔
      (d ≠ [] ∧ d.lookup "sigma_select" = none ∧ d.lookup "sigma_replace" = none)) ∧
    (∀ s t : ℝ, resolveSigmasDict d = .ok (s, t) →
      (d.lookup "sigma_select" = none → s = 0.5) ∧
      (d.lookup "sigma_replace" = none → t = 0.5)) ∧
    (∀ s : ℝ, d.lookup "sigma_select" = some s →
      ∃ t, resolveSigmasDict d = .ok (s, t))
  by_cases hd : d.isEmpty
  · have hdnil : d = [] := List.isEmpty_iff.mp hd
    subst hdnil
    refine ⟨?_, ?_, ?_⟩
    · simp [resolveSigmasDict]
    · intro s t h
      simp [resolveSigmasDict] at h
      exact ⟨fun _ => h.1.symm, fun _ => h.2.symm⟩
    · intro s h
      simp [List.lookup] at h
  · have hdne : d ≠ [] := by
      intro hnil
      rw [hnil] at hd
      exact hd rfl
    unfold resolveSigmasDict
    rw [if_neg hd]
    rcases h1 : d.lookup "sigma_select" with _ | s₀ <;>
      rcases h2 : d.lookup "sigma_replace" with _ | t₀
    · refine ⟨⟨fun _ => ⟨hdne, rfl, rfl⟩, fun _ => ⟨_, rfl⟩⟩, ?_, ?_⟩
      · intro s t h
        simp at h
      · intro s h
        simp at h
    · refine ⟨⟨?_, ?_⟩, ?_, ?_⟩
      · rintro ⟨e, he⟩
        simp at he
      · rintro ⟨-, -, hrep⟩
        simp at hrep
      · intro s t h
        simp at h
        refine ⟨fun _ => h.1.symm, fun hx => ?_⟩
        simp at hx
      · intro s h
        simp at h
    · refine ⟨⟨?_, ?_⟩, ?_, ?_⟩
      · rintro ⟨e, he⟩
        simp at he
      · rintro ⟨-, hsel, -⟩
        simp at hsel
      · intro s t h
        simp at h
        refine ⟨fun hx => ?_, fun _ => h.2.symm⟩
        simp at hx
      · intro s h
        simp at h
        exact ⟨0.5, by rw [h]⟩
    · refine ⟨⟨?_, ?_⟩, ?_, ?_⟩
      · rintro ⟨e, he⟩
        simp at he
      · rintro ⟨-, hsel, -⟩
        simp at hsel
      · intro s t h
        simp at h
        refine ⟨fun hx => ?_, fun hx => ?_⟩
        · simp at hx
        · simp at hx
      · intro s h
        simp at h
        exact ⟨t₀, by rw [h]⟩

/-- Witness: the dictionary `{"bogus": 1}` (non-empty, no sigma keys) is
rejected. -/
theorem C6_sigma_validation_witness :
    ∃ e, resolveSigmas (some (.dict [("bogus", (1 : ℝ))])) = .error e :=
  (C6_sigma_validation [("bogus", (1 : ℝ))]).1.mpr ⟨by simp, rfl, rfl⟩

/-! ## C10: sigma options are honored only under the literal
`additional_options` keyword -/

/-- C10: the sigma configuration is honored only when passed as a keyword
literally named `additional_options` whose value is a dict with the sigma
keys; any other keyword set (e.g. `sigma_select=0.3` passed directly) makes
the wrapper forward `None`, so the call silently behaves exactly like a call
with no options at all (defaults `0.5`/`0.5`, no exception). -/
theorem C10_options_forwarding :
    (∀ (ops : List Op) (num : ℕ) (fraction : ℝ) (mSel mRep : String)
      (kwargs : List (String × OptVal)) (Os : ℕ → Oracle) (tieA tieB : ℕ → Bool),
      kwargs.lookup "additional_options" = none →
      generateTrainingCircuits ops num fraction mSel mRep kwargs Os tieA tieB =
        generateTrainingCircuits ops num fraction mSel mRep [] Os tieA tieB ∧
      resolveSigmas (genOptVal kwargs) = .ok (0.5, 0.5)) ∧
    (∀ σ : ℝ,
      resolveSigmas (genOptVal
        [("additional_options", OptVal.dict [("sigma_select", σ)])]) = .ok (σ, 0.5)) := by
  constructor
  · intro ops num fraction mSel mRep kwargs Os tieA tieB hlk
    have hgen : genOptVal kwargs = none := by
      unfold genOptVal
      split
      · rfl
      · exact hlk
    have hgen' : genOptVal [] = none := rfl
    constructor
    · unfold generateTrainingCircuits
      simp only [hgen, hgen']
    · rw [hgen]
      rfl
  · intro σ
    rfl

/-- Witness for C10 at the concrete kwargs `{sigma_select: 0.3}` (sigma
passed directly, not under `additional_options`): the call coincides with
the no-options call and the resolved sigmas are the defaults. -/
theorem C10_options_forwarding_witness :
    generateTrainingCircuits [] 0 0 "random" "closest"
        [("sigma_select", OptVal.num 0.3)] (fun _ => trivOracle)
        (fun _ => false) (fun _ => false) =
      generateTrainingCircuits [] 0 0 "random" "closest" [] (fun _ => trivOracle)
        (fun _ => false) (fun _ => false) ∧
    resolveSigmas (genOptVal [("sigma_select", OptVal.num 0.3)]) = .ok (0.5, 0.5) :=
  C10_options_forwarding.1 [] 0 0 "random" "closest"
    [("sigma_select", OptVal.num 0.3)] (fun _ => trivOracle)
    (fun _ => false) (fun _ => false) rfl

/-! ## List machinery for the ordering invariant -/

theorem filterMap_eq_map_of_forall_some {α β : Type} (f : α → Option β)
    (g : α → β) : ∀ (l : List α), (∀ a ∈ l, f a = some (g a)) →
    l.filterMap f = l.map g := by
  intro l
  induction l with
  | nil => intro _; rfl
  | cons a t ih =>
    intro h
    rw [List.filterMap_cons, List.map_cons, h a (by simp), ih]
    intro b hb
    exact h b (by simp [hb])

theorem range_filterMap_getElem {α : Type} : ∀ (l : List α),
    ((List.range l.length).filterMap fun i => l[i]?) = l := by
  intro l
  induction l with
  | nil => rfl
  | cons a t ih =>
    have hcomp : ((fun i => (a :: t)[i]?) ∘ Nat.succ) = fun i => t[i]? := by
      funext i
      exact List.getElem?_cons_succ
    rw [List.length_cons, List.range_succ_eq_map, List.filterMap_cons,
      List.filterMap_map, hcomp, ih, List.getElem?_cons_zero]

theorem cols_append_filter_perm (n : ℕ) :
    ∀ (cols : List ℕ), cols.Nodup → (∀ c ∈ cols, c < n) →
    cols ++ (List.range n).filter (fun i => decide (i ∉ cols)) ~ List.range n := by
  intro cols
  induction cols with
  | nil =>
    intro _ _
    simp
  | cons c cs ih =>
    intro hnd hlt
    have hcnotcs : c ∉ cs := (List.nodup_cons.mp hnd).1
    have hcsnd : cs.Nodup := (List.nodup_cons.mp hnd).2
    have hcslt : ∀ x ∈ cs, x < n := fun x hx => hlt x (by simp [hx])
    have hcn : c < n := hlt c (by simp)
    have hXnd : ((List.range n).filter (fun i => decide (i ∉ cs))).Nodup :=
      (List.nodup_range n).filter _
    have hcX : c ∈ (List.range n).filter (fun i => decide (i ∉ cs)) := by
      rw [List.mem_filter]
      exact ⟨List.mem_range.mpr hcn, by simpa using hcnotcs⟩
    have hfe : (List.range n).filter (fun i => decide (i ∉ c :: cs)) =
        ((List.range n).filter (fun i => decide (i ∉ cs))).erase c := by
      rw [hXnd.erase_eq_filter c, List.filter_filter]
      refine List.filter_congr ?_
      intro x _
      by_cases hxc : x = c <;> simp [hxc, List.mem_cons, not_or, Bool.and_comm]
    calc (c :: cs) ++ (List.range n).filter (fun i => decide (i ∉ c :: cs))
        = c :: (cs ++ ((List.range n).filter (fun i => decide (i ∉ cs))).erase c) := by
          rw [hfe]; rfl
      _ ~ cs ++ c :: ((List.range n).filter (fun i => decide (i ∉ cs))).erase c :=
          (List.perm_middle).symm
      _ ~ cs ++ (List.range n).filter (fun i => decide (i ∉ cs)) :=
          List.Perm.append_left cs (List.perm_cons_erase hcX).symm
      _ ~ List.range n := ih hcsnd hcslt

/-- Selecting the columns `cols` and deleting them partitions the list. -/
theorem pick_drop_perm (l : List GateRecord) (cols : List ℕ)
    (hnd : cols.Nodup) (hlt : ∀ c ∈ cols, c < l.length) :
    pickCols l cols ++ dropCols l cols ~ l := by
  unfold pickCols dropCols
  have h := (cols_append_filter_perm l.length cols hnd hlt).filterMap
    (fun i => l[i]?)
  rw [List.filterMap_append] at h
  calc (cols.filterMap fun c => l[c]?) ++
        (((List.range l.length).filter fun i => decide (i ∉ cols)).filterMap
          fun c => l[c]?)
      ~ (List.range l.length).filterMap fun i => l[i]? := h
    _ = l := range_filterMap_getElem l

theorem enumFrom_filter_map_snd {α : Type} (f : ℕ × α → Bool) (g : α → Bool)
    (hfg : ∀ p : ℕ × α, f p = g p.2) :
    ∀ (k : ℕ) (l : List α),
    ((List.enumFrom k l).filter f).map Prod.snd = l.filter g := by
  intro k l
  induction l generalizing k with
  | nil => rfl
  | cons a t ih =>
    simp only [List.enumFrom_cons, List.filter_cons, hfg]
    rcases Bool.eq_false_or_eq_true (g a) with hg | hg <;> simp [hg, ih]

theorem enum_mem_getElem? {α : Type} :
    ∀ (l : List α) (k : ℕ) (p : ℕ × α), p ∈ l.enumFrom k →
    k ≤ p.1 ∧ l[p.1 - k]? = some p.2 := by
  intro l
  induction l with
  | nil =>
    intro k p hp
    simp [List.enumFrom] at hp
  | cons a t ih =>
    intro k p hp
    rw [List.enumFrom_cons] at hp
    rcases List.mem_cons.mp hp with rfl | hp'
    · exact ⟨le_rfl, by simp⟩
    · obtain ⟨hle, hget⟩ := ih (k + 1) p hp'
      refine ⟨by omega, ?_⟩
      have hsub : p.1 - k = (p.1 - (k + 1)) + 1 := by omega
      rw [hsub, List.getElem?_cons_succ]
      exact hget

theorem mem_zip_of_mem_left {α β : Type} {l₁ : List α} {l₂ : List β}
    (hlen : l₂.length = l₁.length) {a : α} (ha : a ∈ l₁) :
    ∃ b, (a, b) ∈ l₁.zip l₂ := by
  obtain ⟨i, hi, rfl⟩ := List.getElem_of_mem ha
  have hi2 : i < l₂.length := by omega
  have hiz : i < (l₁.zip l₂).length := by rw [List.length_zip]; omega
  refine ⟨l₂.get ⟨i, hi2⟩, ?_⟩
  have hz : (l₁.zip l₂).get ⟨i, hiz⟩ = (l₁[i], l₂.get ⟨i, hi2⟩) := by
    simp only [List.get_eq_getElem]
    exact List.getElem_zip ..
  rw [← hz]
  exact List.get_mem _ _ _

/-! ## Record-level facts -/

theorem opToRecord_order (i : ℕ) (op : Op) : (opToRecord i op).order = i := by
  cases op <;> rfl

theorem opToRecord_native (i : ℕ) (op : Op) : (opToRecord i op).native = op := by
  cases op <;> rfl

theorem decode_opToRecord (i : ℕ) (op : Op) :
    decodeRecord (opToRecord i op) = some op := by
  cases op <;> simp [opToRecord, decodeRecord]

theorem setAngle_order (r : GateRecord) (θ : ℝ) : (setAngle r θ).order = r.order := rfl

theorem decode_setAngle_rz (i : ℕ) (θ θ' : ℝ) (q : ℕ) :
    decodeRecord (setAngle (opToRecord i (Op.rz θ q)) θ') = some (Op.rz θ' q) := by
  simp [opToRecord, setAngle, decodeRecord]

/-- The total decoding function: every record built by the encoder decodes,
so `filterMap decodeRecord` acts as `map decodeTop` on reassembled tables. -/
def decodeTop (r : GateRecord) : Op := (decodeRecord r).getD (Op.x 0)

theorem decodeRecord_eq_some_decodeTop {r : GateRecord} {op : Op}
    (h : decodeRecord r = some op) : decodeRecord r = some (decodeTop r) := by
  rw [decodeTop, h]
  rfl

theorem circuitToArray_map_order (ops : List Op) :
    (circuitToArray ops).map (fun r => r.order) = List.range ops.length := by
  unfold circuitToArray
  rw [List.map_map]
  have h : ((fun r : GateRecord => r.order) ∘ fun p : ℕ × Op => opToRecord p.1 p.2)
      = Prod.fst := by
    funext p
    exact opToRecord_order p.1 p.2
  rw [h, List.enum_map_fst]

theorem mem_circuitToArray_ex {ops : List Op} {r : GateRecord}
    (hr : r ∈ circuitToArray ops) :
    ∃ i op, ops[i]? = some op ∧ r = opToRecord i op := by
  unfold circuitToArray at hr
  rcases List.mem_map.mp hr with ⟨p, hp, rfl⟩
  have h := enum_mem_getElem? ops 0 p (by simpa [List.enum] using hp)
  rw [Nat.sub_zero] at h
  exact ⟨p.1, p.2, h.2, rfl⟩

/-! ## The two classification masks reduce to tie-independent filters -/

set_option maxHeartbeats 1000000 in
theorem rzNonCliffRecords_eq_filter (ops : List Op) (tie : ℕ → Bool) :
    rzNonCliffRecords ops tie =
      (rzRecords ops).filter fun r => ! isCliffordAngle (r.param.getD 0) false := by
  unfold rzNonCliffRecords
  have h := enumFrom_filter_map_snd
    (fun p : ℕ × GateRecord => ! isCliffordAngle ((p.2).param.getD 0) (tie p.1))
    (fun r => ! isCliffordAngle (r.param.getD 0) false)
    (fun p => congrArg (fun b => !b)
      (isCliffordAngle_tie_irrel ((p.2).param.getD 0) (tie p.1) false))
    0 (rzRecords ops)
  exact h

set_option maxHeartbeats 400000 in
theorem rzCliffRecords_eq_filter (ops : List Op) (tie : ℕ → Bool) :
    rzCliffRecords ops tie =
      (rzRecords ops).filter fun r => isCliffordAngle (r.param.getD 0) false := by
  unfold rzCliffRecords
  have h := enumFrom_filter_map_snd
    (fun p : ℕ × GateRecord => isCliffordAngle ((p.2).param.getD 0) (tie p.1))
    (fun r => isCliffordAngle (r.param.getD 0) false)
    (fun p => isCliffordAngle_tie_irrel ((p.2).param.getD 0) (tie p.1) false)
    0 (rzRecords ops)
  exact h

/-- The three parts assembled by the encoder are a permutation of the whole
gate table. -/
theorem cliff_partition_perm (ops : List Op) (tieA tieB : ℕ → Bool) :
    (notRzRecords ops ++ rzCliffRecords ops tieB) ++ rzNonCliffRecords ops tieA ~
      circuitToArray ops := by
  rw [rzCliffRecords_eq_filter, rzNonCliffRecords_eq_filter]
  have h1 : (rzRecords ops).filter (fun r => isCliffordAngle (r.param.getD 0) false) ++
      (rzRecords ops).filter (fun r => ! isCliffordAngle (r.param.getD 0) false) ~
      rzRecords ops := List.filter_append_perm _ _
  have h2 : notRzRecords ops ++ rzRecords ops ~ circuitToArray ops := by
    unfold notRzRecords rzRecords
    have hpe : (circuitToArray ops).filter (fun r => decide (r.name = "rz")) =
        (circuitToArray ops).filter (fun r => !(decide (¬ r.name = "rz"))) := by
      refine List.filter_congr ?_
      intro r _
      by_cases h : r.name = "rz" <;> simp [h]
    rw [hpe]
    exact List.filter_append_perm _ _
  calc (notRzRecords ops ++ (rzRecords ops).filter
          (fun r => isCliffordAngle (r.param.getD 0) false)) ++
        (rzRecords ops).filter (fun r => ! isCliffordAngle (r.param.getD 0) false)
      ~ notRzRecords ops ++ ((rzRecords ops).filter
          (fun r => isCliffordAngle (r.param.getD 0) false) ++
          (rzRecords ops).filter (fun r => ! isCliffordAngle (r.param.getD 0) false)) := by
        rw [List.append_assoc]
    _ ~ notRzRecords ops ++ rzRecords ops := List.Perm.append_left _ h1
    _ ~ circuitToArray ops := h2

theorem mem_rzNonCliffRecords {ops : List Op} {tie : ℕ → Bool} {r : GateRecord}
    (hr : r ∈ rzNonCliffRecords ops tie) :
    r ∈ circuitToArray ops ∧ r.name = "rz" := by
  rw [rzNonCliffRecords_eq_filter] at hr
  have h1 := (List.mem_filter.mp hr).1
  unfold rzRecords at h1
  have h2 := List.mem_filter.mp h1
  exact ⟨h2.1, by simpa using h2.2⟩

theorem mem_allCliff {ops : List Op} {tieB : ℕ → Bool} {r : GateRecord}
    (hr : r ∈ notRzRecords ops ++ rzCliffRecords ops tieB) :
    r ∈ circuitToArray ops := by
  rcases List.mem_append.mp hr with h | h
  · unfold notRzRecords at h
    exact (List.mem_filter.mp h).1
  · rw [rzCliffRecords_eq_filter] at h
    have h1 := (List.mem_filter.mp h).1
    unfold rzRecords at h1
    exact (List.mem_filter.mp h1).1

theorem mem_pickCols {l : List GateRecord} {cols : List ℕ} {r : GateRecord}
    (hr : r ∈ pickCols l cols) : r ∈ l := by
  unfold pickCols at hr
  rcases List.mem_filterMap.mp hr with ⟨c, _, hc⟩
  exact List.getElem?_mem hc

theorem mem_dropCols {l : List GateRecord} {cols : List ℕ} {r : GateRecord}
    (hr : r ∈ dropCols l cols) : r ∈ l := by
  unfold dropCols at hr
  rcases List.mem_filterMap.mp hr with ⟨c, _, hc⟩
  exact List.getElem?_mem hc

/-! ## Inversion of the pipeline stages -/

theorem encodeParts_ok {ops : List Op} {tieA tieB : ℕ → Bool}
    {parts : List GateRecord × List GateRecord × List GateRecord}
    (h : encodeParts ops tieA tieB = .ok parts) :
    parts = (notRzRecords ops, rzCliffRecords ops tieB, rzNonCliffRecords ops tieA) := by
  unfold encodeParts at h
  split at h
  · exact absurd h (by simp)
  · simp only [Except.ok.injEq] at h
    exact h.symm

theorem selectColumns_ok_facts {mSel : String} {rzNC : List GateRecord} {total : ℕ}
    {k : ℤ} {σ : ℝ} {O : Oracle} (hO : OracleValid O) {cols : List ℕ}
    (h : selectColumns mSel rzNC total k σ O = .ok cols) :
    cols.Nodup ∧ (∀ c ∈ cols, c < total) ∧ cols.length = k.toNat := by
  unfold selectColumns at h
  split at h
  · split at h
    · exact absurd h (by simp)
    · rename_i hk
      have hkle : k.toNat ≤ total := by omega
      simp only [Except.ok.injEq] at h
      rw [← h]
      exact ⟨hO.sample_nodup _ _, hO.sample_lt _ _, hO.sample_len _ _ hkle⟩
  · split at h
    · split at h
      · exact absurd h (by simp)
      · split at h
        · exact absurd h (by simp)
        · rename_i hk
          have hkle : k.toNat ≤ total := by omega
          simp only [Except.ok.injEq] at h
          rw [← h]
          exact ⟨hO.npChoice_nodup _ _ _, hO.npChoice_lt _ _ _,
            hO.npChoice_len _ _ _ hkle⟩
    · exact absurd h (by simp)

theorem replaceAngles_ok_len {mRep : String} {sel : List GateRecord} {σ : ℝ}
    {O : Oracle} {newAngles : List ℝ}
    (h : replaceAngles mRep sel σ O = .ok newAngles) :
    newAngles.length = sel.length := by
  unfold replaceAngles at h
  split at h
  · split at h
    · exact absurd h (by simp)
    · simp only [Except.ok.injEq] at h
      rw [← h, List.length_map, List.enum_length]
  · split at h
    · split at h
      · exact absurd h (by simp)
      · simp only [Except.ok.injEq] at h
        rw [← h, List.length_map, List.enum_length]
    · split at h
      · split at h
        · exact absurd h (by simp)
        · simp only [Except.ok.injEq] at h
          rw [← h, List.length_map, List.enum_length]
      · exact absurd h (by simp)

theorem mapToNearClifford_ok_inv {rzNC allCliff : List GateRecord} {total : ℕ}
    {fraction : ℝ} {mSel mRep : String} {optVal : Option OptVal} {O : Oracle}
    {c : List Op} {ao ar : List ℝ}
    (h : (mapToNearClifford rzNC allCliff total fraction mSel mRep optVal O).1 =
      .ok (c, ao, ar)) :
    ∃ sigmas cols newAngles,
      resolveSigmas optVal = .ok sigmas ∧
      selectColumns mSel rzNC total ((total : ℤ) - pyInt (fraction * total))
        sigmas.1 O = .ok cols ∧
      replaceAngles mRep (pickCols rzNC cols) sigmas.2 O = .ok newAngles ∧
      c = arrayToCircuit (sortByOrder (mergedRecords rzNC allCliff cols newAngles)) ∧
      ao = (pickCols rzNC cols).map (fun r => r.param.getD 0) ∧
      ar = newAngles := by
  unfold mapToNearClifford at h
  split at h
  · exact absurd h (by simp)
  · rename_i sigmas hrs
    split at h
    · exact absurd h (by simp)
    · rename_i cols hsc
      split at h
      · exact absurd h (by simp)
      · rename_i newAngles hra
        simp only [Except.ok.injEq, Prod.mk.injEq] at h
        refine ⟨sigmas, cols, newAngles, hrs, hsc, hra, ?_, ?_, ?_⟩
        · exact h.1.symm
        · exact h.2.1.symm
        · exact h.2.2.symm

theorem collectResults_ok_mem {α : Type} {f : ℕ → Except String α} :
    ∀ {l : List ℕ} {ys : List α}, collectResults f l = .ok ys →
    ys.length = l.length ∧ ∀ y ∈ ys, ∃ i ∈ l, f i = .ok y := by
  intro l
  induction l with
  | nil =>
    intro ys h
    unfold collectResults at h
    simp only [Except.ok.injEq] at h
    subst h
    exact ⟨rfl, by simp⟩
  | cons i rest ih =>
    intro ys h
    unfold collectResults at h
    split at h
    · exact absurd h (by simp)
    · rename_i a hfi
      split at h
      · exact absurd h (by simp)
      · rename_i as har
        simp only [Except.ok.injEq] at h
        subst h
        obtain ⟨hlen, hmem⟩ := ih har
        refine ⟨by simp [hlen], ?_⟩
        intro y hy
        rcases List.mem_cons.mp hy with rfl | hy'
        · exact ⟨i, by simp, hfi⟩
        · obtain ⟨j, hj, hfj⟩ := hmem y hy'
          exact ⟨j, by simp [hj], hfj⟩

theorem generateTrainingCircuits_ok_inv {ops : List Op} {num : ℕ} {fraction : ℝ}
    {mSel mRep : String} {kwargs : List (String × OptVal)} {Os : ℕ → Oracle}
    {tieA tieB : ℕ → Bool}
    {circs : List (List Op)} {origs reps : List (List ℝ)}
    (h : generateTrainingCircuits ops num fraction mSel mRep kwargs Os tieA tieB =
      .ok (circs, origs, reps)) :
    circs.length = num ∧
    ∀ c ∈ circs, ∃ i ao ar,
      (mapToNearClifford (rzNonCliffRecords ops tieA)
        (notRzRecords ops ++ rzCliffRecords ops tieB)
        (rzNonCliffRecords ops tieA).length fraction mSel mRep
        (genOptVal kwargs) (Os i)).1 = .ok (c, ao, ar) := by
  unfold generateTrainingCircuits at h
  split at h
  · exact absurd h (by simp)
  · rename_i parts henc
    have hparts := encodeParts_ok henc
    subst hparts
    split at h
    · exact absurd h (by simp)
    · rename_i results hcoll
      simp only [Except.ok.injEq, Prod.mk.injEq] at h
      obtain ⟨hlen, hmemf⟩ := collectResults_ok_mem hcoll
      have hcircs : circs = results.map (·.1) := h.1.symm
      constructor
      · rw [hcircs, List.length_map, hlen, List.length_range]
      · intro c hc
        rw [hcircs] at hc
        rcases List.mem_map.mp hc with ⟨res, hres, rfl⟩
        obtain ⟨i, _, hfi⟩ := hmemf res hres
        exact ⟨i, res.2.1, res.2.2, hfi⟩

/-! ## The ordering invariant of one rewritten circuit -/

theorem mem_mergedRecords {rzNC allCliff : List GateRecord} {cols : List ℕ}
    {newAngles : List ℝ} {r : GateRecord}
    (hr : r ∈ mergedRecords rzNC allCliff cols newAngles) :
    r ∈ allCliff ∨ (∃ p ∈ (pickCols rzNC cols).zip newAngles, r = setAngle p.1 p.2)
      ∨ r ∈ dropCols rzNC cols := by
  unfold mergedRecords at hr
  rcases List.mem_append.mp hr with h1 | hd
  · rcases List.mem_append.mp h1 with ha | hs
    · exact Or.inl ha
    · rcases List.mem_map.mp hs with ⟨p, hp, hpe⟩
      exact Or.inr (Or.inl ⟨p, hp, hpe.symm⟩)
  · exact Or.inr (Or.inr hd)

theorem mapToNearClifford_ok_spec
    (ops : List Op) (tieA tieB : ℕ → Bool) (fraction : ℝ) (mSel mRep : String)
    (optVal : Option OptVal) (O : Oracle) (hO : OracleValid O)
    (tc : List Op) (ao ar : List ℝ)
    (h : (mapToNearClifford (rzNonCliffRecords ops tieA)
        (notRzRecords ops ++ rzCliffRecords ops tieB)
        (rzNonCliffRecords ops tieA).length fraction mSel mRep optVal O).1 =
      .ok (tc, ao, ar)) :
    tc.length = ops.length ∧
    ∃ R : List ℕ,
      (∀ j ∈ R, ∃ θ q, ops[j]? = some (Op.rz θ q)) ∧
      ∀ j : ℕ,
        (j ∉ R → tc[j]? = ops[j]?) ∧
        (j ∈ R → ∃ θ θ' q, ops[j]? = some (Op.rz θ q) ∧ tc[j]? = some (Op.rz θ' q)) := by
  obtain ⟨sigmas, cols, newAngles, hrs, hsc, hra, hc, hao, har⟩ :=
    mapToNearClifford_ok_inv h
  obtain ⟨hnd, hlt, _⟩ := selectColumns_ok_facts hO hsc
  have hralen := replaceAngles_ok_len hra
  have hpartperm : pickCols (rzNonCliffRecords ops tieA) cols ++
      dropCols (rzNonCliffRecords ops tieA) cols ~ rzNonCliffRecords ops tieA :=
    pick_drop_perm _ cols hnd hlt
  have hmapsel : ((pickCols (rzNonCliffRecords ops tieA) cols).zip newAngles).map
      ((fun r : GateRecord => r.order) ∘ fun p : GateRecord × ℝ => setAngle p.1 p.2)
      = (pickCols (rzNonCliffRecords ops tieA) cols).map (fun r => r.order) := by
    have h1 : ((fun r : GateRecord => r.order) ∘
        fun p : GateRecord × ℝ => setAngle p.1 p.2)
        = (fun r : GateRecord => r.order) ∘ Prod.fst := rfl
    rw [h1, ← List.map_map, List.map_fst_zip _ _ (le_of_eq hralen.symm)]
  have hpd : (pickCols (rzNonCliffRecords ops tieA) cols).map (fun r => r.order) ++
      (dropCols (rzNonCliffRecords ops tieA) cols).map (fun r => r.order) ~
      (rzNonCliffRecords ops tieA).map (fun r => r.order) := by
    have hh := hpartperm.map (fun r : GateRecord => r.order)
    rwa [List.map_append] at hh
  have hcp : ((notRzRecords ops).map (fun r => r.order) ++
      (rzCliffRecords ops tieB).map (fun r => r.order)) ++
      (rzNonCliffRecords ops tieA).map (fun r => r.order) ~
      List.range ops.length := by
    have hh := (cliff_partition_perm ops tieA tieB).map (fun r : GateRecord => r.order)
    rw [circuitToArray_map_order, List.map_append, List.map_append] at hh
    exact hh
  have hordperm : (mergedRecords (rzNonCliffRecords ops tieA)
      (notRzRecords ops ++ rzCliffRecords ops tieB) cols newAngles).map
      (fun r => r.order) ~ List.range ops.length := by
    have e1 : (mergedRecords (rzNonCliffRecords ops tieA)
        (notRzRecords ops ++ rzCliffRecords ops tieB) cols newAngles).map
        (fun r => r.order) =
        (((notRzRecords ops).map (fun r => r.order) ++
          (rzCliffRecords ops tieB).map (fun r => r.order)) ++
          (pickCols (rzNonCliffRecords ops tieA) cols).map (fun r => r.order)) ++
          (dropCols (rzNonCliffRecords ops tieA) cols).map (fun r => r.order) := by
      unfold mergedRecords
      simp only [List.map_append, List.map_map]
      rw [hmapsel]
    rw [e1]
    calc (((notRzRecords ops).map (fun r => r.order) ++
          (rzCliffRecords ops tieB).map (fun r => r.order)) ++
          (pickCols (rzNonCliffRecords ops tieA) cols).map (fun r => r.order)) ++
          (dropCols (rzNonCliffRecords ops tieA) cols).map (fun r => r.order)
        ~ ((notRzRecords ops).map (fun r => r.order) ++
          (rzCliffRecords ops tieB).map (fun r => r.order)) ++
          ((pickCols (rzNonCliffRecords ops tieA) cols).map (fun r => r.order) ++
          (dropCols (rzNonCliffRecords ops tieA) cols).map (fun r => r.order)) := by
          rw [List.append_assoc]
      _ ~ ((notRzRecords ops).map (fun r => r.order) ++
          (rzCliffRecords ops tieB).map (fun r => r.order)) ++
          (rzNonCliffRecords ops tieA).map (fun r => r.order) :=
          List.Perm.append_left _ hpd
      _ ~ List.range ops.length := hcp
  have hnodupord : ((mergedRecords (rzNonCliffRecords ops tieA)
      (notRzRecords ops ++ rzCliffRecords ops tieB) cols newAngles).map
      (fun r => r.order)).Nodup :=
    (hordperm.symm).nodup (List.nodup_range ops.length)
  have hsperm : sortByOrder (mergedRecords (rzNonCliffRecords ops tieA)
      (notRzRecords ops ++ rzCliffRecords ops tieB) cols newAngles) ~
      mergedRecords (rzNonCliffRecords ops tieA)
      (notRzRecords ops ++ rzCliffRecords ops tieB) cols newAngles :=
    List.perm_insertionSort recLE _
  have hmapsorted : (sortByOrder (mergedRecords (rzNonCliffRecords ops tieA)
      (notRzRecords ops ++ rzCliffRecords ops tieB) cols newAngles)).map
      (fun r => r.order) = List.range ops.length := by
    have hs1 : ((sortByOrder (mergedRecords (rzNonCliffRecords ops tieA)
        (notRzRecords ops ++ rzCliffRecords ops tieB) cols newAngles)).map
        (fun r => r.order)).Sorted (fun a b : ℕ => a ≤ b) :=
      (List.pairwise_map).mpr (List.sorted_insertionSort recLE _)
    have hs2 : (List.range ops.length).Sorted (fun a b : ℕ => a ≤ b) :=
      (List.pairwise_lt_range ops.length).imp (fun h => le_of_lt h)
    exact List.eq_of_perm_of_sorted ((hsperm.map _).trans hordperm) hs1 hs2
  have hslen : (sortByOrder (mergedRecords (rzNonCliffRecords ops tieA)
      (notRzRecords ops ++ rzCliffRecords ops tieB) cols newAngles)).length
      = ops.length := by
    have hl := congrArg List.length hmapsorted
    rwa [List.length_map, List.length_range] at hl
  have hdecode : ∀ r ∈ mergedRecords (rzNonCliffRecords ops tieA)
      (notRzRecords ops ++ rzCliffRecords ops tieB) cols newAngles,
      decodeRecord r = some (decodeTop r) := by
    intro r hr
    unfold mergedRecords at hr
    rcases List.mem_append.mp hr with hr1 | hrd
    · rcases List.mem_append.mp hr1 with hra1 | hrs1
      · obtain ⟨i, op, hget, heq⟩ := mem_circuitToArray_ex (mem_allCliff hra1)
        have hdr : decodeRecord r = some op := by
          rw [heq]
          exact decode_opToRecord _ _
        exact decodeRecord_eq_some_decodeTop hdr
      · rcases List.mem_map.mp hrs1 with ⟨p, hp, rfl⟩
        obtain ⟨hp1, -⟩ := List.mem_zip hp
        have hrz := mem_rzNonCliffRecords (mem_pickCols hp1)
        obtain ⟨i, op, hget, heq⟩ := mem_circuitToArray_ex hrz.1
        obtain ⟨θ, q, hop⟩ := opToRecord_name_rz
          (show (opToRecord i op).name = "rz" by rw [← heq]; exact hrz.2)
        have hdr : decodeRecord (setAngle p.1 p.2) = some (Op.rz p.2 q) := by
          rw [heq, hop]
          exact decode_setAngle_rz _ _ _ _
        exact decodeRecord_eq_some_decodeTop hdr
    · obtain ⟨i, op, hget, heq⟩ := mem_circuitToArray_ex
        ((mem_rzNonCliffRecords (mem_dropCols hrd)).1)
      have hdr : decodeRecord r = some op := by
        rw [heq]
        exact decode_opToRecord _ _
      exact decodeRecord_eq_some_decodeTop hdr
  have hcmap : tc = (sortByOrder (mergedRecords (rzNonCliffRecords ops tieA)
      (notRzRecords ops ++ rzCliffRecords ops tieB) cols newAngles)).map decodeTop := by
    rw [hc]
    unfold arrayToCircuit
    refine filterMap_eq_map_of_forall_some decodeRecord decodeTop _ ?_
    intro r hr
    exact hdecode r (hsperm.subset hr)
  have hclen : tc.length = ops.length := by
    rw [hcmap, List.length_map, hslen]
  refine ⟨hclen, (pickCols (rzNonCliffRecords ops tieA) cols).map (fun r => r.order),
    ?_, ?_⟩
  · intro j hj
    rcases List.mem_map.mp hj with ⟨r₀, hr₀, rfl⟩
    have hrz := mem_rzNonCliffRecords (mem_pickCols hr₀)
    obtain ⟨i, op, hget, heq⟩ := mem_circuitToArray_ex hrz.1
    obtain ⟨θ, q, hop⟩ := opToRecord_name_rz
      (show (opToRecord i op).name = "rz" by rw [← heq]; exact hrz.2)
    rw [heq, opToRecord_order]
    subst hop
    exact ⟨θ, q, hget⟩
  · intro j
    by_cases hjn : j < ops.length
    · have hjs : j < (sortByOrder (mergedRecords (rzNonCliffRecords ops tieA)
          (notRzRecords ops ++ rzCliffRecords ops tieB) cols newAngles)).length := by
        rw [hslen]
        exact hjn
      have hrget : (sortByOrder (mergedRecords (rzNonCliffRecords ops tieA)
          (notRzRecords ops ++ rzCliffRecords ops tieB) cols newAngles))[j]? =
          some ((sortByOrder (mergedRecords (rzNonCliffRecords ops tieA)
          (notRzRecords ops ++ rzCliffRecords ops tieB) cols newAngles)).get
            ⟨j, hjs⟩) := by
        rw [List.getElem?_eq_getElem hjs]
        rfl
      have hcj : tc[j]? = some (decodeTop ((sortByOrder (mergedRecords
          (rzNonCliffRecords ops tieA)
          (notRzRecords ops ++ rzCliffRecords ops tieB) cols newAngles)).get
            ⟨j, hjs⟩)) := by
        rw [hcmap, List.getElem?_map, hrget]
        rfl
      have hordj : ((sortByOrder (mergedRecords (rzNonCliffRecords ops tieA)
          (notRzRecords ops ++ rzCliffRecords ops tieB) cols newAngles)).get
            ⟨j, hjs⟩).order = j := by
        have h1 : ((sortByOrder (mergedRecords (rzNonCliffRecords ops tieA)
            (notRzRecords ops ++ rzCliffRecords ops tieB) cols newAngles)).map
            (fun r => r.order))[j]? = some j := by
          rw [hmapsorted]
          exact List.getElem?_range hjn
        rw [List.getElem?_map, hrget] at h1
        simpa using h1
      have hmemmerged : (sortByOrder (mergedRecords (rzNonCliffRecords ops tieA)
          (notRzRecords ops ++ rzCliffRecords ops tieB) cols newAngles)).get
            ⟨j, hjs⟩ ∈ mergedRecords (rzNonCliffRecords ops tieA)
          (notRzRecords ops ++ rzCliffRecords ops tieB) cols newAngles :=
        hsperm.subset (List.get_mem _ _ _)
      constructor
      · intro hjR
        rcases mem_mergedRecords hmemmerged with ha | ⟨p, hp, hpe⟩ | hd
        · obtain ⟨i, op, hget, heq⟩ := mem_circuitToArray_ex (mem_allCliff ha)
          have hij : i = j := by
            rw [heq, opToRecord_order] at hordj
            exact hordj
          subst hij
          rw [hcj, heq, hget]
          unfold decodeTop
          rw [decode_opToRecord]
          rfl
        · exfalso
          obtain ⟨hp1, -⟩ := List.mem_zip hp
          apply hjR
          have hje : j = p.1.order := by
            rw [← hordj, hpe]
            rfl
          rw [hje]
          exact List.mem_map_of_mem _ hp1
        · obtain ⟨i, op, hget, heq⟩ := mem_circuitToArray_ex
            ((mem_rzNonCliffRecords (mem_dropCols hd)).1)
          have hij : i = j := by
            rw [heq, opToRecord_order] at hordj
            exact hordj
          subst hij
          rw [hcj, heq, hget]
          unfold decodeTop
          rw [decode_opToRecord]
          rfl
      · intro hjR
        rcases List.mem_map.mp hjR with ⟨r₀, hr₀, hord0⟩
        have hrz0 := mem_rzNonCliffRecords (mem_pickCols hr₀)
        obtain ⟨i, op, hget0, hr0eq⟩ := mem_circuitToArray_ex hrz0.1
        obtain ⟨θ, q, hop⟩ := opToRecord_name_rz
          (show (opToRecord i op).name = "rz" by rw [← hr0eq]; exact hrz0.2)
        subst hop
        have hij : j = i := by
          rw [hr0eq, opToRecord_order] at hord0
          exact hord0.symm
        subst hij
        obtain ⟨θ', hzip⟩ := mem_zip_of_mem_left hralen hr₀
        have hselmem : setAngle r₀ θ' ∈
            ((pickCols (rzNonCliffRecords ops tieA) cols).zip newAngles).map
              (fun p => setAngle p.1 p.2) :=
          List.mem_map_of_mem _ hzip
        have hmm2 : setAngle r₀ θ' ∈ mergedRecords (rzNonCliffRecords ops tieA)
            (notRzRecords ops ++ rzCliffRecords ops tieB) cols newAngles := by
          unfold mergedRecords
          exact List.mem_append.mpr (Or.inl (List.mem_append.mpr (Or.inr hselmem)))
        have hordeq : ((sortByOrder (mergedRecords (rzNonCliffRecords ops tieA)
            (notRzRecords ops ++ rzCliffRecords ops tieB) cols newAngles)).get
              ⟨j, hjs⟩).order = (setAngle r₀ θ').order := by
          rw [hordj, setAngle_order, hr0eq, opToRecord_order]
        have heqr : (sortByOrder (mergedRecords (rzNonCliffRecords ops tieA)
            (notRzRecords ops ++ rzCliffRecords ops tieB) cols newAngles)).get
              ⟨j, hjs⟩ = setAngle r₀ θ' :=
          List.inj_on_of_nodup_map hnodupord hmemmerged hmm2 hordeq
        refine ⟨θ, θ', q, hget0, ?_⟩
        rw [hcj, heqr, hr0eq]
        unfold decodeTop
        rw [decode_setAngle_rz]
        rfl
    · constructor
      · intro _
        have hc1 : tc[j]? = none := by
          refine List.getElem?_eq_none ?_
          omega
        have hc2 : ops[j]? = none := List.getElem?_eq_none (by omega)
        rw [hc1, hc2]
      · intro hjR
        exfalso
        rcases List.mem_map.mp hjR with ⟨r₀, hr₀, hord0⟩
        have hrz0 := mem_rzNonCliffRecords (mem_pickCols hr₀)
        obtain ⟨i, op, hget0, hr0eq⟩ := mem_circuitToArray_ex hrz0.1
        have hij : i = r₀.order := by
          rw [hr0eq, opToRecord_order]
        have hin : i < ops.length := by
          by_contra hcon
          rw [List.getElem?_eq_none (by omega)] at hget0
          exact Option.noConfusion hget0
        omega


/-! ## Evaluating the pipeline on a one-gate circuit -/

theorem pyInt_zero_mul (x : ℝ) : pyInt (0 * x) = 0 := by
  rw [zero_mul, pyInt_of_nonneg le_rfl, Int.floor_zero]

theorem pyInt_one_mul_natCast (n : ℕ) : pyInt (1 * (n : ℝ)) = (n : ℤ) := by
  rw [one_mul, pyInt_natCast]

/-- The angle `1` (radian) is not classified as Clifford: its nearest
Clifford angle is `π/2`, at distance `π/2 - 1 > 10⁻⁵`. -/
theorem isCliffordAngle_one_false (t : Bool) : isCliffordAngle 1 t = false := by
  have hπ3 : (3 : ℝ) < π := Real.pi_gt_three
  have hπ4 : π < 3.15 := by
    have := Real.pi_lt_315
    linarith
  have hπpos : (0 : ℝ) < π := by linarith
  have hpm : pmod 1 (2 * π) = 1 := pmod_eq_self 1 (2 * π) (by norm_num) (by linarith)
  have hang : angScaled 1 = 2 / π := by
    unfold angScaled
    rw [hpm]
    field_simp
  have hlo : (1.26 : ℝ) < 4 / π := by
    rw [lt_div_iff hπpos]
    nlinarith
  have hhi : 4 / π < (4 : ℝ) / 3 := by
    rw [div_lt_div_iff hπpos (by norm_num)]
    nlinarith
  have hdet : detCond (angScaled 1) := by
    rw [hang]
    unfold detCond
    have h1 : (2 / π) / 0.5 = 4 / π := by ring
    refine ⟨?_, ?_, ?_⟩ <;> rw [h1]
    · rw [abs_of_pos (by linarith)]
      linarith
    · rw [abs_of_neg (by linarith)]
      linarith
    · rw [abs_of_neg (by linarith)]
      linarith
  have hcc : closestClifford 1 t = π / 2 := by
    rw [closestClifford_of_det t hdet]
    have hnr : npRound (angScaled 1) = 1 := by
      rw [hang]
      unfold npRound
      have hf : ⌊(2 : ℝ) / π⌋ = 0 := by
        rw [Int.floor_eq_zero_iff]
        constructor
        · positivity
        · rw [div_lt_one hπpos]
          linarith
      rw [hf]
      rw [if_neg ?_]
      · rw [round_eq]
        have h12 : (1 : ℝ) / 2 < 2 / π := by
          rw [div_lt_div_iff (by norm_num) hπpos]
          nlinarith
        have h32 : (2 : ℝ) / π < 3 / 2 := by
          rw [div_lt_div_iff hπpos (by norm_num)]
          nlinarith
        have : ⌊(2 : ℝ) / π + 1 / 2⌋ = 1 := by
          apply Int.floor_eq_iff.mpr
          constructor
          · push_cast
            linarith
          · push_cast
            linarith
        exact this
      · push_cast
        intro hc
        have hπeq : π = 4 := by
          field_simp at hc
          linarith
        linarith
    rw [hnr]
    rfl
  unfold isCliffordAngle
  rw [hpm, hcc]
  apply decide_eq_false
  rw [abs_of_pos (by linarith)]
  push_neg
  linarith

theorem genEvalMap :
    mapToNearClifford [⟨0, "rz", some 1, [0], Op.rz 1 0⟩] [] 1 0 "random" "random"
      (genOptVal []) trivOracle =
      (.ok ([Op.rz 0 0], [1], [0]), 1) := by
  simp only [mapToNearClifford, pyInt_zero_mul]
  rfl

theorem genEval :
    generateTrainingCircuits [Op.rz 1 0] 1 0 "random" "random" []
      (fun _ => trivOracle) (fun _ => false) (fun _ => false) =
      .ok ([[Op.rz 0 0]], [[1]], [[0]]) := by
  have hcla : isCliffordAngle 1 false = false := isCliffordAngle_one_false false
  have hrz : rzRecords [Op.rz 1 0] = [⟨0, "rz", some 1, [0], Op.rz 1 0⟩] := rfl
  have hnc : rzNonCliffRecords [Op.rz 1 0] (fun _ => false) =
      [⟨0, "rz", some 1, [0], Op.rz 1 0⟩] := by
    unfold rzNonCliffRecords
    rw [hrz]
    simp [List.filter_cons, hcla]
  have hcf : rzCliffRecords [Op.rz 1 0] (fun _ => false) = [] := by
    unfold rzCliffRecords
    rw [hrz]
    simp [List.filter_cons, hcla]
  have henc : encodeParts [Op.rz 1 0] (fun _ => false) (fun _ => false) =
      .ok ([], [], [⟨0, "rz", some 1, [0], Op.rz 1 0⟩]) := by
    unfold encodeParts
    rw [hrz]
    simp only [List.isEmpty_cons, Bool.false_eq_true, if_false]
    rw [hnc, hcf]
    rfl
  have hcoll : collectResults (fun _ : ℕ =>
      (mapToNearClifford [⟨0, "rz", some 1, [0], Op.rz 1 0⟩] ([] ++ [])
        [(⟨0, "rz", some 1, [0], Op.rz 1 0⟩ : GateRecord)].length 0
        "random" "random" (genOptVal []) trivOracle).1)
      (List.range 1) = .ok [([Op.rz 0 0], [1], [0])] := by
    have h0 : (mapToNearClifford [⟨0, "rz", some 1, [0], Op.rz 1 0⟩] ([] ++ [])
        [(⟨0, "rz", some 1, [0], Op.rz 1 0⟩ : GateRecord)].length 0
        "random" "random" (genOptVal []) trivOracle).1 =
        Except.ok ([Op.rz 0 0], [1], [0]) := congrArg Prod.fst genEvalMap
    rw [show List.range 1 = [0] from rfl]
    simp only [collectResults, h0]
  simp only [generateTrainingCircuits, henc, hcoll]
  rfl

/-! ## C2: the order invariant of `generate_training_circuits` -/

/-- C2: every training circuit produced by `generate_training_circuits` has
the same length as the input circuit, and there is a set `R` of positions,
all holding `rz` gates in the input, such that every position outside `R`
carries exactly the original operation (same kind, parameter and qubits, at
the same index) and every position in `R` carries an `rz` gate on the
original qubit with only the angle changed.  Projected onto the
encoder-assigned `order` values the output is therefore the strictly
increasing enumeration of the original index set. -/
theorem C2_order_invariant
    (ops : List Op) (num : ℕ) (fraction : ℝ) (mSel mRep : String)
    (kwargs : List (String × OptVal)) (Os : ℕ → Oracle) (tieA tieB : ℕ → Bool)
    (hOs : ∀ i, OracleValid (Os i))
    (circs : List (List Op)) (origs reps : List (List ℝ))
    (h : generateTrainingCircuits ops num fraction mSel mRep kwargs Os tieA tieB =
      .ok (circs, origs, reps)) :
    circs.length = num ∧
    ∀ tc ∈ circs, tc.length = ops.length ∧
      ∃ R : List ℕ,
        (∀ j ∈ R, ∃ θ q, ops[j]? = some (Op.rz θ q)) ∧
        ∀ j : ℕ,
          (j ∉ R → tc[j]? = ops[j]?) ∧
          (j ∈ R → ∃ θ θ' q, ops[j]? = some (Op.rz θ q) ∧ tc[j]? = some (Op.rz θ' q)) := by
  obtain ⟨hlen, hmem⟩ := generateTrainingCircuits_ok_inv h
  refine ⟨hlen, fun tc htc => ?_⟩
  obtain ⟨i, ao, ar, hfi⟩ := hmem tc htc
  exact mapToNearClifford_ok_spec ops tieA tieB fraction mSel mRep
    (genOptVal kwargs) (Os i) (hOs i) tc ao ar hfi

/-- Witness for C2 on the one-gate circuit `[Rz(1)(q0)]` with one training
circuit: the call succeeds, returning `[Rz(0)(q0)]`, and the theorem applies
with the oracle hypothesis discharged by the concrete oracle. -/
theorem C2_order_invariant_witness :
    (∀ i : ℕ, OracleValid ((fun _ : ℕ => trivOracle) i)) ∧
    generateTrainingCircuits [Op.rz 1 0] 1 0 "random" "random" []
      (fun _ => trivOracle) (fun _ => false) (fun _ => false) =
      .ok ([[Op.rz 0 0]], [[1]], [[0]]) ∧
    ([[Op.rz 0 0]].length = 1 ∧
     ∀ tc ∈ [[Op.rz 0 0]], tc.length = [Op.rz 1 0].length ∧
      ∃ R : List ℕ,
        (∀ j ∈ R, ∃ θ q, [Op.rz 1 0][j]? = some (Op.rz θ q)) ∧
        ∀ j : ℕ,
          (j ∉ R → tc[j]? = [Op.rz 1 0][j]?) ∧
          (j ∈ R → ∃ θ θ' q, [Op.rz 1 0][j]? = some (Op.rz θ q) ∧
            tc[j]? = some (Op.rz θ' q))) :=
  ⟨fun _ => trivOracle_valid, genEval,
    C2_order_invariant [Op.rz 1 0] 1 0 "random" "random" [] (fun _ => trivOracle)
      (fun _ => false) (fun _ => false) (fun _ => trivOracle_valid)
      [[Op.rz 0 0]] [[1]] [[0]] genEval⟩

/-! ## C5: `fraction_non_clifford = 1.0` always raises -/

theorem replaceAngles_nil_ne_ok (mRep : String) (σ : ℝ) (O : Oracle)
    (l : List ℝ) : replaceAngles mRep [] σ O ≠ .ok l := by
  intro h
  unfold replaceAngles at h
  split at h
  · simp at h
  · split at h
    · simp at h
    · split at h
      · simp at h
      · exact absurd h (by simp)

/-- C5 (code bug): with `fraction_non_clifford = 1.0` the selection stage
draws `N = total - int(1.0 * total) = 0` columns, so the selected-angles
array is empty and every replacement branch raises the `np.vectorize`
ValueError (an unrecognized replacement method raises too); hence for every
circuit and at least one requested training circuit the call never returns
successfully, contradicting the claim that it succeeds with counts
preserved. -/
theorem C5_fraction_one_never_succeeds
    (ops : List Op) (num : ℕ) (mRep : String) (kwargs : List (String × OptVal))
    (Os : ℕ → Oracle) (tieA tieB : ℕ → Bool)
    (hOs : ∀ i, OracleValid (Os i)) (hnum : 0 < num) :
    ∀ res, generateTrainingCircuits ops num 1 "random" mRep kwargs Os tieA tieB ≠
      .ok res := by
  rintro ⟨circs, origs, reps⟩ h
  obtain ⟨hlen, hmem⟩ := generateTrainingCircuits_ok_inv h
  have hpos : 0 < circs.length := by rw [hlen]; exact hnum
  obtain ⟨c, hc⟩ := List.exists_mem_of_length_pos hpos
  obtain ⟨i, ao, ar, hfi⟩ := hmem c hc
  obtain ⟨sigmas, cols, newAngles, hrs, hsc, hra, -, -, -⟩ :=
    mapToNearClifford_ok_inv hfi
  obtain ⟨-, -, hclen⟩ := selectColumns_ok_facts (hOs i) hsc
  rw [pyInt_one_mul_natCast, sub_self, Int.toNat_zero] at hclen
  have hcols : cols = [] := List.length_eq_zero.mp hclen
  subst hcols
  exact replaceAngles_nil_ne_ok mRep sigmas.2 (Os i) newAngles hra

/-- Witness for C5: the concrete call on `[Rz(1)(q0)]` with one training
circuit, `fraction_non_clifford = 1.0` and the `closest` replacement method
never returns a success value. -/
theorem C5_fraction_one_never_succeeds_witness :
    (∀ i : ℕ, OracleValid ((fun _ : ℕ => trivOracle) i)) ∧ 0 < 1 ∧
    ∀ res, generateTrainingCircuits [Op.rz 1 0] 1 1 "random" "closest" []
      (fun _ => trivOracle) (fun _ => false) (fun _ => false) ≠ .ok res :=
  ⟨fun _ => trivOracle_valid, Nat.one_pos,
    C5_fraction_one_never_succeeds [Op.rz 1 0] 1 "closest" []
      (fun _ => trivOracle) (fun _ => false) (fun _ => false)
      (fun _ => trivOracle_valid) Nat.one_pos⟩

/-! ## C3: where the method strings are validated -/

/-- C3, counterexample: with a valid selection method and the invalid
replacement method `"bogus"`, `_map_to_near_clifford` on a one-gate circuit
raises the replace InvalidArgument error only **after** the selection stage
has drawn one column (the second component, the number of selection draws
made before the call finished, is `1`, not `0`): the invalid string does not
abort before sampling. -/
theorem C3_counterexample :
    mapToNearClifford [⟨0, "rz", some 1, [0], Op.rz 1 0⟩] [] 1 0 "random" "bogus"
      none trivOracle = (.error replaceErrMsg, 1) := by
  simp only [mapToNearClifford, pyInt_zero_mul]
  rfl

theorem mapToNearClifford_bad_select
    (rzNC allCliff : List GateRecord) (total : ℕ) (fraction : ℝ)
    (mSel mRep : String) (O : Oracle)
    (hsel1 : mSel ≠ "random") (hsel2 : mSel ≠ "probabilistic") :
    mapToNearClifford rzNC allCliff total fraction mSel mRep none O =
      (.error selectErrMsg, 0) := by
  have hs : selectColumns mSel rzNC total
      ((total : ℤ) - pyInt (fraction * total)) 0.5 O = .error selectErrMsg := by
    unfold selectColumns
    rw [if_neg hsel1, if_neg hsel2]
  simp only [mapToNearClifford, resolveSigmas, hs]

theorem collectResults_error {α : Type} (f : ℕ → Except String α) (e : String)
    (num : ℕ) (hf : f 0 = .error e) (hnum : 0 < num) :
    collectResults f (List.range num) = .error e := by
  obtain ⟨m, rfl⟩ : ∃ m, num = m + 1 := ⟨num - 1, by omega⟩
  rw [List.range_succ_eq_map]
  simp only [collectResults, hf]

/-- C3 (amended): an invalid `method_select` string aborts
`_map_to_near_clifford` with the select InvalidArgument error before any
sampling (zero selection draws recorded), and the whole
`generate_training_circuits` call aborts with that error and no partial
results; an invalid `method_replace` string, by contrast, is only detected
after the selection stage: whenever selection succeeds with a list of drawn
columns, the call aborts with the replace error only after those draws. -/
theorem C3_method_validation
    (rzNC allCliff : List GateRecord) (total : ℕ) (fraction : ℝ)
    (mSel mRep : String) (O : Oracle)
    (ops : List Op) (num : ℕ) (Os : ℕ → Oracle) (tieA tieB : ℕ → Bool)
    (hsel1 : mSel ≠ "random") (hsel2 : mSel ≠ "probabilistic")
    (hrep1 : mRep ≠ "closest") (hrep2 : mRep ≠ "random")
    (hrep3 : mRep ≠ "probabilistic")
    (hrz : (rzRecords ops).isEmpty = false) (hnum : 0 < num) :
    mapToNearClifford rzNC allCliff total fraction mSel mRep none O =
      (.error selectErrMsg, 0) ∧
    generateTrainingCircuits ops num fraction mSel mRep [] Os tieA tieB =
      .error selectErrMsg ∧
    (∀ cols, selectColumns "random" rzNC total
        ((total : ℤ) - pyInt (fraction * total)) 0.5 O = .ok cols →
      mapToNearClifford rzNC allCliff total fraction "random" mRep none O =
        (.error replaceErrMsg, cols.length)) := by
  refine ⟨mapToNearClifford_bad_select rzNC allCliff total fraction mSel mRep O
    hsel1 hsel2, ?_, ?_⟩
  · have hf0 : (mapToNearClifford (rzNonCliffRecords ops tieA)
        (notRzRecords ops ++ rzCliffRecords ops tieB)
        (rzNonCliffRecords ops tieA).length fraction mSel mRep
        (genOptVal []) (Os 0)).1 = .error selectErrMsg :=
      congrArg Prod.fst (mapToNearClifford_bad_select _ _ _ fraction mSel mRep
        (Os 0) hsel1 hsel2)
    unfold generateTrainingCircuits
    split
    · rename_i e he
      unfold encodeParts at he
      rw [hrz] at he
      exact absurd he (by simp)
    · rename_i parts hp
      unfold encodeParts at hp
      rw [hrz] at hp
      simp only [Bool.false_eq_true, if_false, Except.ok.injEq] at hp
      subst hp
      rw [collectResults_error _ selectErrMsg num hf0 hnum]
  · intro cols hsc
    have hr : replaceAngles mRep (pickCols rzNC cols) 0.5 O =
        .error replaceErrMsg := by
      unfold replaceAngles
      rw [if_neg hrep1, if_neg hrep2, if_neg hrep3]
    simp only [mapToNearClifford, resolveSigmas, hsc, hr]

/-- Witness for the amended C3 theorem: concrete invalid method strings on
the one-gate circuit. -/
theorem C3_method_validation_witness :
    (("bogus" : String) ≠ "random" ∧ ("bogus" : String) ≠ "probabilistic" ∧
     ("bogus" : String) ≠ "closest" ∧
     (rzRecords [Op.rz 1 0]).isEmpty = false ∧ 0 < 1) ∧
    (mapToNearClifford [⟨0, "rz", some 1, [0], Op.rz 1 0⟩] [] 1 0 "bogus" "bogus"
        none trivOracle = (.error selectErrMsg, 0) ∧
     generateTrainingCircuits [Op.rz 1 0] 1 0 "bogus" "bogus" []
        (fun _ => trivOracle) (fun _ => false) (fun _ => false) =
        .error selectErrMsg ∧
     (∀ cols, selectColumns "random" [⟨0, "rz", some 1, [0], Op.rz 1 0⟩] 1
          ((1 : ℤ) - pyInt (0 * (1 : ℕ))) 0.5 trivOracle = .ok cols →
        mapToNearClifford [⟨0, "rz", some 1, [0], Op.rz 1 0⟩] [] 1 0 "random"
          "bogus" none trivOracle = (.error replaceErrMsg, cols.length))) :=
  ⟨⟨by decide, by decide, by decide, rfl, Nat.one_pos⟩,
    C3_method_validation [⟨0, "rz", some 1, [0], Op.rz 1 0⟩] [] 1 0 "bogus"
      "bogus" trivOracle [Op.rz 1 0] 1 (fun _ => trivOracle)
      (fun _ => false) (fun _ => false)
      (by decide) (by decide) (by decide) (by decide) (by decide)
      rfl Nat.one_pos⟩

end

end CliffordData
